import Mathlib

/-!
Verification development for the discrete-event network latency simulator
(`network_core.rs`).  The Rust core is shallowly embedded: `f64` simulated
times, latencies and bandwidths become exact rationals; the `BinaryHeap` of
events becomes a list with a deterministic minimum-time pop; `HashMap` node
stores become association-style lists with replace-on-insert semantics; the
scheduler's while-loop becomes a fuel-indexed recursion whose fuel is later
proven sufficient.
-/

set_option maxHeartbeats 1000000

namespace NetSim

/-- Physical constant (m/s) from the source. -/
def SPEED_OF_LIGHT : ℚ := 299792458

/-- Fiber refractive index from the source (1.47). -/
def FIBER_REFRACTIVE_INDEX : ℚ := 147 / 100

/-- Signal speed in fiber from the source. -/
def SPEED_IN_FIBER : ℚ := SPEED_OF_LIGHT / FIBER_REFRACTIVE_INDEX

/-- Path inefficiency multiplier from the source (1.3). -/
def PATH_INEFFICIENCY_FACTOR : ℚ := 13 / 10

/-- Geographic coordinate with a display name (`GeoLocation`). -/
structure GeoLocation where
  latitude : ℚ
  longitude : ℚ
  name : String
deriving DecidableEq, Repr

/-- Server node: id, location, per-hop processing delay, egress bandwidth. -/
structure Server where
  id : Nat
  location : GeoLocation
  processing_delay : ℚ
  bandwidth : ℚ
deriving DecidableEq, Repr

/-- Client node: id and location. -/
structure Client where
  id : Nat
  location : GeoLocation
deriving DecidableEq, Repr

/-- Protocol tag of a packet (`PacketType`). -/
inductive PacketType where
  | Standard
  | TcpSyn
  | TcpSynAck
  | TcpAck
  | CdnRequest
  | CdnResponse
deriving DecidableEq, Repr

/-- A packet (`DataPacket`). -/
structure DataPacket where
  id : Nat
  source_id : Nat
  destination_id : Nat
  size_bytes : Nat
  created_at : ℚ
  packet_type : PacketType
deriving DecidableEq, Repr

/-- A directed link (`NetworkLink`); `from_`/`to_` are the Rust fields
`from`/`to` (both reserved words in Lean). -/
structure NetworkLink where
  from_ : Nat
  to_ : Nat
  distance : ℚ
  latency : ℚ
  bandwidth : ℚ
  queue_end_time : ℚ
deriving DecidableEq, Repr

/-- `NetworkLink::new`: inflates the distance by the path-inefficiency
factor and derives the propagation latency from the fiber signal speed. -/
def NetworkLink.new (from_id to_id : Nat) (dist bw : ℚ) : NetworkLink :=
  let real_world_distance := dist * PATH_INEFFICIENCY_FACTOR
  { from_ := from_id
    to_ := to_id
    distance := real_world_distance
    latency := real_world_distance / SPEED_IN_FIBER
    bandwidth := bw
    queue_end_time := 0 }

/-- `NetworkLink::transmission_time`: size in bytes times 8, over the
bandwidth in bits per second. -/
def NetworkLink.transmission_time (l : NetworkLink) (size : Nat) : ℚ :=
  ((size : ℚ) * 8) / l.bandwidth

/-- Kind of a scheduled event (`EventType`). -/
inductive EventType where
  | PacketArrival (node : Nat)
  | PacketTransmissionComplete (node : Nat)
deriving DecidableEq, Repr

/-- A scheduled event (`Event`). -/
structure Event where
  time : ℚ
  packet : DataPacket
  event_type : EventType
deriving DecidableEq, Repr

/-- The simulation state (`NetworkSimulation`).  The Rust `HashMap`s keyed
by node id become lists looked up by id, the `BinaryHeap` becomes a list
popped at its earliest-time element. -/
structure NetworkSimulation where
  servers : List Server
  clients : List Client
  links : List NetworkLink
  event_queue : List Event
  current_time : ℚ
  completed_packets : List (DataPacket × ℚ)
deriving DecidableEq, Repr

/-! ## The routing graph

`find_next_hop` reads only the `from`/`to` fields of the links, so the
breadth-first search is phrased over the list of directed edges. -/

/-- The directed edge list of a link list. -/
def edges (links : List NetworkLink) : List (Nat × Nat) :=
  links.map (fun l => (l.from_, l.to_))

/-- Successors of a node in link-insertion order
(`links.iter().filter(|l| l.from == current)`, reading each `l.to`). -/
def outs (es : List (Nat × Nat)) (current : Nat) : List Nat :=
  (es.filter (fun e => e.1 == current)).map (fun e => e.2)

/-- All edge targets (the only nodes the BFS ever inserts into `visited`
besides the start). -/
def targets (es : List (Nat × Nat)) : List Nat :=
  es.map (fun e => e.2)

/-- First hop recorded for a newly discovered node `x`:
`if first_hop.is_none() { Some(link.to) } else { first_hop }`. -/
def bfsHop (first_hop : Option Nat) (x : Nat) : Option Nat :=
  if first_hop.isNone then some x else first_hop

/-- One expansion round of the BFS `for` loop: walk the successor list in
order, skipping already-visited nodes, marking fresh ones visited and
queueing them with their recorded first hop. -/
def expandBFS (first_hop : Option Nat) :
    List Nat → List Nat → List (Nat × Option Nat) × List Nat
  | [], visited => ([], visited)
  | t :: ts, visited =>
    if t ∈ visited then
      expandBFS first_hop ts visited
    else
      let r := expandBFS first_hop ts (t :: visited)
      ((t, bfsHop first_hop t) :: r.1, r.2)

theorem expandBFS_visited_subset (fh : Option Nat) :
    ∀ (ts visited : List Nat) (x : Nat),
      x ∈ visited → x ∈ (expandBFS fh ts visited).2 := by
  intro ts
  induction ts with
  | nil => intro visited x hx; simpa [expandBFS] using hx
  | cons t ts ih =>
    intro visited x hx
    by_cases h : t ∈ visited
    · simpa [expandBFS, h] using ih visited x hx
    · simp only [expandBFS, if_neg h]
      exact ih (t :: visited) x (by simp [hx])

theorem expandBFS_mem_snd (fh : Option Nat) :
    ∀ (ts visited : List Nat) (x : Nat),
      x ∈ (expandBFS fh ts visited).2 ↔
        x ∈ visited ∨ x ∈ (expandBFS fh ts visited).1.map Prod.fst := by
  intro ts
  induction ts with
  | nil => intro visited x; simp [expandBFS]
  | cons t ts ih =>
    intro visited x
    by_cases h : t ∈ visited
    · simp [expandBFS, h, ih]
    · simp only [expandBFS, if_neg h, List.map_cons, List.mem_cons]
      rw [ih (t :: visited) x]
      simp only [List.mem_cons]
      tauto

theorem expandBFS_entry (fh : Option Nat) :
    ∀ (ts visited : List Nat) (x : Nat) (nh : Option Nat),
      (x, nh) ∈ (expandBFS fh ts visited).1 →
        nh = bfsHop fh x ∧ x ∈ ts ∧ x ∉ visited := by
  intro ts
  induction ts with
  | nil => intro visited x nh h; simp [expandBFS] at h
  | cons t ts ih =>
    intro visited x nh h
    by_cases ht : t ∈ visited
    · simp only [expandBFS, if_pos ht] at h
      obtain ⟨h1, h2, h3⟩ := ih visited x nh h
      exact ⟨h1, by simp [h2], h3⟩
    · simp only [expandBFS, if_neg ht] at h
      rcases List.mem_cons.mp h with heq | hmem
      · have hx : x = t := by
          have := congrArg Prod.fst heq
          simpa using this
        subst hx
        have hnh : nh = bfsHop fh x := by
          have := congrArg Prod.snd heq
          simpa using this
        exact ⟨hnh, by simp, ht⟩
      · obtain ⟨h1, h2, h3⟩ := ih (t :: visited) x nh hmem
        exact ⟨h1, by simp [h2], fun hx => h3 (by simp [hx])⟩

theorem expandBFS_fst_fresh (fh : Option Nat) :
    ∀ (ts visited : List Nat) (x : Nat),
      x ∈ (expandBFS fh ts visited).1.map Prod.fst →
        x ∈ ts ∧ x ∉ visited := by
  intro ts visited x hx
  rcases List.mem_map.mp hx with ⟨⟨y, nh⟩, hmem, hy⟩
  cases hy
  exact (expandBFS_entry fh ts visited _ nh hmem).2

theorem expandBFS_fst_nodup (fh : Option Nat) :
    ∀ (ts visited : List Nat),
      ((expandBFS fh ts visited).1.map Prod.fst).Nodup := by
  intro ts
  induction ts with
  | nil => intro visited; simp [expandBFS]
  | cons t ts ih =>
    intro visited
    by_cases h : t ∈ visited
    · simpa [expandBFS, h] using ih visited
    · simp only [expandBFS, if_neg h, List.map_cons, List.nodup_cons]
      refine ⟨fun hmem => ?_, ih (t :: visited)⟩
      have := (expandBFS_fst_fresh fh ts (t :: visited) t hmem).2
      simp at this

theorem expandBFS_outs_mem (fh : Option Nat) :
    ∀ (ts visited : List Nat) (t : Nat),
      t ∈ ts → t ∈ (expandBFS fh ts visited).2 := by
  intro ts
  induction ts with
  | nil => intro visited t ht; simp at ht
  | cons u ts ih =>
    intro visited t ht
    rcases List.mem_cons.mp ht with rfl | ht'
    · by_cases hu : t ∈ visited
      · simp only [expandBFS, if_pos hu]
        exact expandBFS_visited_subset fh ts visited t hu
      · simp only [expandBFS, if_neg hu]
        exact expandBFS_visited_subset fh ts (t :: visited) t (by simp)
    · by_cases hu : u ∈ visited
      · simp only [expandBFS, if_pos hu]
        exact ih visited t ht'
      · simp only [expandBFS, if_neg hu]
        exact ih (u :: visited) t ht'

/-- Count of relevant nodes not yet visited; the BFS termination measure
counts over the deduplicated edge targets. -/
def unvis (es : List (Nat × Nat)) (visited : List Nat) : Nat :=
  ((targets es).dedup.filter (fun x => decide (x ∉ visited))).length

theorem length_filter_mono {α : Type} (T : List α) (p q : α → Bool)
    (h : ∀ x, p x = true → q x = true) :
    (T.filter p).length ≤ (T.filter q).length := by
  induction T with
  | nil => simp
  | cons a T ih =>
    rw [List.filter_cons, List.filter_cons]
    by_cases hp : p a = true
    · simp only [hp, if_pos, h a hp, List.length_cons]
      exact Nat.succ_le_succ ih
    · simp only [Bool.not_eq_true] at hp
      simp only [hp]
      cases hq : q a
      · simpa using ih
      · simp only [List.length_cons]
        exact Nat.le_succ_of_le ih

theorem filter_cons_drop (T : List Nat) :
    ∀ (v : List Nat) (t : Nat), t ∈ T → t ∉ v →
      (T.filter (fun x => decide (x ∉ t :: v))).length + 1 ≤
        (T.filter (fun x => decide (x ∉ v))).length := by
  induction T with
  | nil => intro v t ht; simp at ht
  | cons a T ih =>
    intro v t ht hv
    rw [List.filter_cons, List.filter_cons]
    by_cases hat : a = t
    · subst hat
      rw [if_neg (by simp), if_pos (by simpa using hv)]
      have := length_filter_mono T (fun x => decide (x ∉ a :: v))
        (fun x => decide (x ∉ v)) (by intro x hx; simp at hx ⊢; exact hx.2)
      simp only [List.length_cons]
      omega
    · have ht' : t ∈ T := by
        rcases List.mem_cons.mp ht with h | h
        · exact absurd h.symm hat
        · exact h
      by_cases hav : a ∈ v
      · rw [if_neg (by simp [hav]), if_neg (by simpa using hav)]
        exact ih v t ht' hv
      · rw [if_pos (by simp [hat, hav]), if_pos (by simpa using hav)]
        simp only [List.length_cons]
        exact Nat.succ_le_succ (ih v t ht' hv)

theorem unvis_le (es : List (Nat × Nat)) (visited : List Nat) (t : Nat)
    (ht : t ∈ targets es) (hv : t ∉ visited) :
    unvis es (t :: visited) + 1 ≤ unvis es visited :=
  filter_cons_drop (targets es).dedup visited t (List.mem_dedup.mpr ht) hv

theorem expandBFS_measure (es : List (Nat × Nat)) (fh : Option Nat) :
    ∀ (ts visited : List Nat), (∀ t ∈ ts, t ∈ targets es) →
      unvis es (expandBFS fh ts visited).2 + (expandBFS fh ts visited).1.length ≤
        unvis es visited := by
  intro ts
  induction ts with
  | nil => intro visited _; simp [expandBFS, Nat.le_refl]
  | cons t ts ih =>
    intro visited hts
    by_cases h : t ∈ visited
    · simpa [expandBFS, h] using
        ih visited (fun u hu => hts u (by simp [hu]))
    · simp only [expandBFS, if_neg h, List.length_cons]
      have h1 := ih (t :: visited) (fun u hu => hts u (by simp [hu]))
      have h2 := unvis_le es visited t (hts t (by simp)) h
      omega

theorem outs_subset_targets (es : List (Nat × Nat)) (current : Nat) :
    ∀ t ∈ outs es current, t ∈ targets es := by
  intro t ht
  rcases List.mem_map.mp ht with ⟨e, he, rfl⟩
  exact List.mem_map.mpr ⟨e, List.mem_of_mem_filter he, rfl⟩

/-- The BFS loop of `find_next_hop`: pop the front queue entry, return its
first hop if it is the target, otherwise enqueue its unvisited successors
(in link-insertion order) and continue.  The loop runs on an explicit fuel
so that it is structurally recursive (and so computes by kernel
reduction); `2 * unvis es visited + queue.length` strictly decreases per
iteration, so the fuel chosen in `find_next_hop` is provably never
exhausted (see the main BFS theorem, whose fuel-0 case forces an empty
queue). -/
def bfsLoop (es : List (Nat × Nat)) (dst : Nat) :
    Nat → List (Nat × Option Nat) → List Nat → Option Nat
  | 0, _, _ => none
  | _ + 1, [], _ => none
  | fuel + 1, (current, first_hop) :: rest, visited =>
    if current = dst then first_hop
    else
      bfsLoop es dst fuel
        (rest ++ (expandBFS first_hop (outs es current) visited).1)
        (expandBFS first_hop (outs es current) visited).2

/-- `NetworkSimulation::find_next_hop`: breadth-first search from `fr`
over the directed links, returning the first hop toward `dst`. -/
def find_next_hop (links : List NetworkLink) (fr dst : Nat) : Option Nat :=
  bfsLoop (edges links) dst (2 * unvis (edges links) [fr] + 1) [(fr, none)] [fr]

theorem find_next_hop_self (links : List NetworkLink) (x : Nat) :
    find_next_hop links x x = none := by
  rw [find_next_hop, bfsLoop]
  simp

/-! ## Walks, reachability and shortest hop distance (specification side) -/

/-- A directed walk from `a` through the successive nodes of `l` to `b`. -/
def Walk (es : List (Nat × Nat)) : Nat → List Nat → Nat → Prop
  | a, [], b => a = b
  | a, c :: cs, b => (a, c) ∈ es ∧ Walk es c cs b

/-- There is a directed path of exactly `k` hops from `a` to `b`. -/
def PathLen (es : List (Nat × Nat)) (a b k : Nat) : Prop :=
  ∃ l, l.length = k ∧ Walk es a l b

/-- There is a directed path from `a` to `b` (0 hops allowed). -/
def Reachable (es : List (Nat × Nat)) (a b : Nat) : Prop :=
  ∃ l, Walk es a l b

theorem walk_append_mid (es : List (Nat × Nat)) :
    ∀ (l₁ l₂ : List Nat) (a b : Nat), Walk es a (l₁ ++ l₂) b →
      ∃ m, Walk es a l₁ m ∧ Walk es m l₂ b := by
  intro l₁
  induction l₁ with
  | nil => intro l₂ a b h; exact ⟨a, rfl, h⟩
  | cons c cs ih =>
    intro l₂ a b h
    obtain ⟨hac, hw⟩ := h
    obtain ⟨m, hm1, hm2⟩ := ih l₂ c b hw
    exact ⟨m, ⟨hac, hm1⟩, hm2⟩

theorem walk_append (es : List (Nat × Nat)) :
    ∀ (l₁ l₂ : List Nat) (a m b : Nat),
      Walk es a l₁ m → Walk es m l₂ b → Walk es a (l₁ ++ l₂) b := by
  intro l₁
  induction l₁ with
  | nil =>
    intro l₂ a m b h1 h2
    cases h1
    exact h2
  | cons c cs ih =>
    intro l₂ a m b h1 h2
    obtain ⟨hac, hw⟩ := h1
    exact ⟨hac, ih l₂ c m b hw h2⟩

theorem walk_snoc_end (es : List (Nat × Nat)) (l : List Nat) (a x m : Nat)
    (h : Walk es a (l ++ [x]) m) : m = x := by
  obtain ⟨m', _, hm'⟩ := walk_append_mid es l [x] a m h
  obtain ⟨_, hx⟩ := hm'
  exact hx.symm

theorem walk_snoc (es : List (Nat × Nat)) (l : List Nat) (a b c : Nat)
    (h : Walk es a l b) (hbc : (b, c) ∈ es) : Walk es a (l ++ [c]) c :=
  walk_append es l [c] a b c h ⟨hbc, rfl⟩

theorem walk_mem_targets (es : List (Nat × Nat)) :
    ∀ (l : List Nat) (a b : Nat), Walk es a l b → ∀ x ∈ l, x ∈ targets es := by
  intro l
  induction l with
  | nil => intro a b _ x hx; simp at hx
  | cons c cs ih =>
    intro a b h x hx
    obtain ⟨hac, hw⟩ := h
    rcases List.mem_cons.mp hx with rfl | hx'
    · exact List.mem_map.mpr ⟨(a, x), hac, rfl⟩
    · exact ih c b hw x hx'

theorem walk_splice (es : List (Nat × Nat)) (l₁ l₂ l₃ : List Nat) (a b x : Nat)
    (h : Walk es a (l₁ ++ x :: (l₂ ++ x :: l₃)) b) :
    Walk es a (l₁ ++ x :: l₃) b := by
  have hshape : l₁ ++ x :: (l₂ ++ x :: l₃) = (l₁ ++ [x]) ++ ((l₂ ++ [x]) ++ l₃) := by
    simp
  rw [hshape] at h
  obtain ⟨m₁, hm₁, hrest⟩ := walk_append_mid es (l₁ ++ [x]) _ a b h
  have hx₁ : m₁ = x := walk_snoc_end es l₁ a x m₁ hm₁
  rw [hx₁] at hm₁ hrest
  obtain ⟨m₂, hm₂, htail⟩ := walk_append_mid es (l₂ ++ [x]) l₃ x b hrest
  have hx₂ : m₂ = x := walk_snoc_end es l₂ x x m₂ hm₂
  rw [hx₂] at htail
  have : Walk es a ((l₁ ++ [x]) ++ l₃) b := walk_append es (l₁ ++ [x]) l₃ a x b hm₁ htail
  simpa using this

theorem not_nodup_decomp {α : Type} [DecidableEq α] :
    ∀ (l : List α), ¬ l.Nodup → ∃ (l₁ : List α) (x : α) (l₂ l₃ : List α),
      l = l₁ ++ x :: (l₂ ++ x :: l₃) := by
  intro l
  induction l with
  | nil => intro h; exact absurd List.nodup_nil h
  | cons a l ih =>
    intro h
    rw [List.nodup_cons] at h
    push_neg at h
    by_cases ha : a ∈ l
    · obtain ⟨s, t, rfl⟩ := List.append_of_mem ha
      exact ⟨[], a, s, t, by simp⟩
    · obtain ⟨l₁, x, l₂, l₃, rfl⟩ := ih (h ha)
      exact ⟨a :: l₁, x, l₂, l₃, by simp⟩

/-- Upper bound on the number of distinct nodes a walk can pass through. -/
def linkCardBound (es : List (Nat × Nat)) : Nat :=
  (targets es).dedup.length

theorem nodup_length_le (T : List Nat) (l : List Nat) (hd : l.Nodup)
    (hsub : ∀ x ∈ l, x ∈ T) : l.length ≤ T.dedup.length := by
  have h1 : l.toFinset.card = l.length := List.toFinset_card_of_nodup hd
  have h2 : l.toFinset ⊆ T.toFinset := by
    intro x hx
    exact List.mem_toFinset.mpr (hsub x (List.mem_toFinset.mp hx))
  have h3 := Finset.card_le_card h2
  rw [h1, List.card_toFinset] at h3
  exact h3

theorem walk_prune (es : List (Nat × Nat)) :
    ∀ (n : Nat) (l : List Nat) (a b : Nat), l.length ≤ n → Walk es a l b →
      ∃ l', Walk es a l' b ∧ l'.length ≤ l.length ∧
        l'.length ≤ linkCardBound es := by
  intro n
  induction n with
  | zero =>
    intro l a b hn hw
    have : l = [] := List.length_eq_zero.mp (Nat.le_zero.mp hn)
    subst this
    exact ⟨[], hw, Nat.le_refl _, Nat.zero_le _⟩
  | succ n ih =>
    intro l a b hn hw
    by_cases hb : l.length ≤ linkCardBound es
    · exact ⟨l, hw, Nat.le_refl _, hb⟩
    · have hnd : ¬ l.Nodup := by
        intro hd
        exact hb (nodup_length_le (targets es) l hd (walk_mem_targets es l a b hw))
      obtain ⟨l₁, x, l₂, l₃, rfl⟩ := not_nodup_decomp _ hnd
      have hw' := walk_splice es l₁ l₂ l₃ a b x hw
      have hlen : (l₁ ++ x :: l₃).length ≤ n := by
        have h1 : (l₁ ++ x :: l₃).length < (l₁ ++ x :: (l₂ ++ x :: l₃)).length := by
          simp
          omega
        omega
      obtain ⟨l', hw'', hle, hbound⟩ := ih (l₁ ++ x :: l₃) a b hlen hw'
      refine ⟨l', hw'', ?_, hbound⟩
      have : (l₁ ++ x :: l₃).length ≤ (l₁ ++ x :: (l₂ ++ x :: l₃)).length := by
        simp
        omega
      omega

/-- Decidable bounded reachability: is there a walk of at most `k` hops? -/
def reachLeB (es : List (Nat × Nat)) : Nat → Nat → Nat → Bool
  | 0, a, b => a == b
  | k + 1, a, b => a == b || (outs es a).any (fun c => reachLeB es k c b)

theorem mem_outs (es : List (Nat × Nat)) (a c : Nat) :
    c ∈ outs es a ↔ (a, c) ∈ es := by
  constructor
  · intro h
    rcases List.mem_map.mp h with ⟨e, hmem, rfl⟩
    have := List.of_mem_filter hmem
    have he : e.1 = a := by simpa using this
    have : e = (a, e.2) := by
      cases e
      simp at he
      simp [he]
    rw [← this]
    exact List.mem_of_mem_filter hmem
  · intro h
    exact List.mem_map.mpr ⟨(a, c), List.mem_filter.mpr ⟨h, by simp⟩, rfl⟩

theorem reachLeB_iff (es : List (Nat × Nat)) :
    ∀ (k a b : Nat), reachLeB es k a b = true ↔
      ∃ l, l.length ≤ k ∧ Walk es a l b := by
  intro k
  induction k with
  | zero =>
    intro a b
    simp only [reachLeB, beq_iff_eq]
    constructor
    · intro h; exact ⟨[], by simp, h⟩
    · rintro ⟨l, hl, hw⟩
      have : l = [] := List.length_eq_zero.mp (Nat.le_zero.mp hl)
      subst this
      exact hw
  | succ k ih =>
    intro a b
    simp only [reachLeB, Bool.or_eq_true, beq_iff_eq, List.any_eq_true]
    constructor
    · rintro (rfl | ⟨c, hc, hr⟩)
      · exact ⟨[], by simp, rfl⟩
      · obtain ⟨l, hl, hw⟩ := (ih c b).mp hr
        exact ⟨c :: l, by simpa using Nat.succ_le_succ hl,
          (mem_outs es a c).mp hc, hw⟩
    · rintro ⟨l, hl, hw⟩
      cases l with
      | nil => exact Or.inl hw
      | cons c cs =>
        obtain ⟨hac, hw'⟩ := hw
        refine Or.inr ⟨c, (mem_outs es a c).mpr hac, (ih c b).mpr ?_⟩
        exact ⟨cs, by simpa using Nat.succ_le_succ_iff.mp hl, hw'⟩

/-- Scan fuel `m` downward for the least `j ≤ m` with a walk of at most
`j` hops. -/
def distAux (es : List (Nat × Nat)) (a b : Nat) : Nat → Option Nat
  | 0 => if reachLeB es 0 a b then some 0 else none
  | m + 1 =>
    match distAux es a b m with
    | some j => some j
    | none => if reachLeB es (m + 1) a b then some (m + 1) else none

theorem distAux_spec (es : List (Nat × Nat)) (a b : Nat) :
    ∀ (m j : Nat), distAux es a b m = some j →
      reachLeB es j a b = true ∧ j ≤ m ∧ ∀ i, i < j → reachLeB es i a b = false := by
  intro m
  induction m with
  | zero =>
    intro j h
    simp only [distAux] at h
    by_cases hr : reachLeB es 0 a b = true
    · rw [if_pos hr] at h
      cases h
      exact ⟨hr, Nat.le_refl _, fun i hi => absurd hi (Nat.not_lt_zero i)⟩
    · rw [if_neg hr] at h
      cases h
  | succ m ih =>
    intro j h
    simp only [distAux] at h
    cases hm : distAux es a b m with
    | some j' =>
      rw [hm] at h
      cases h
      obtain ⟨h1, h2, h3⟩ := ih j hm
      exact ⟨h1, Nat.le_succ_of_le h2, h3⟩
    | none =>
      rw [hm] at h
      by_cases hr : reachLeB es (m + 1) a b = true
      · rw [if_pos hr] at h
        cases h
        refine ⟨hr, Nat.le_refl _, fun i hi => ?_⟩
        by_contra hri
        rw [Bool.not_eq_false] at hri
        have hcomp : ∀ i' ≤ m, reachLeB es i' a b = true → False := by
          intro i' hi' hr'
          have : ∀ m', i' ≤ m' → m' ≤ m → distAux es a b m' ≠ none := by
            intro m' hm1 hm2
            induction m' with
            | zero =>
              have : i' = 0 := Nat.le_zero.mp hm1
              subst this
              simp [distAux, hr']
            | succ m'' ih' =>
              simp only [distAux]
              cases hm'' : distAux es a b m'' with
              | some j'' => simp
              | none =>
                by_cases hii : i' ≤ m''
                · exact absurd hm'' (ih' hii (Nat.le_of_succ_le hm2))
                · have : i' = m'' + 1 := by omega
                  subst this
                  simp [hr']
          exact this m hi' (Nat.le_refl m) hm
        exact hcomp i (by omega) hri
      · rw [if_neg hr] at h
        cases h

theorem distAux_complete (es : List (Nat × Nat)) (a b : Nat) :
    ∀ (m k : Nat), k ≤ m → reachLeB es k a b = true →
      ∃ j, distAux es a b m = some j ∧ j ≤ k := by
  intro m
  induction m with
  | zero =>
    intro k hk hr
    have : k = 0 := Nat.le_zero.mp hk
    subst this
    exact ⟨0, by simp [distAux, hr], Nat.le_refl _⟩
  | succ m ih =>
    intro k hk hr
    simp only [distAux]
    cases hm : distAux es a b m with
    | some j =>
      obtain ⟨h1, h2, h3⟩ := distAux_spec es a b m j hm
      refine ⟨j, rfl, ?_⟩
      by_contra hjk
      push_neg at hjk
      rw [h3 k hjk] at hr
      cases hr
    | none =>
      by_cases hkm : k ≤ m
      · obtain ⟨j, hj, _⟩ := ih k hkm hr
        rw [hj] at hm
        cases hm
      · have : k = m + 1 := by omega
        subst this
        exact ⟨m + 1, by simp [hr], Nat.le_refl _⟩

/-- Shortest hop count from `a` to `b` (0 when unreachable); every
reachable pair has a pruned walk of at most `linkCardBound` hops, so
scanning up to that bound finds the minimum. -/
def distN (es : List (Nat × Nat)) (a b : Nat) : Nat :=
  (distAux es a b (linkCardBound es)).getD 0

theorem distN_le_bound (es : List (Nat × Nat)) (a b : Nat) :
    distN es a b ≤ linkCardBound es := by
  rw [distN]
  cases h : distAux es a b (linkCardBound es) with
  | none => simp
  | some j =>
    obtain ⟨_, h2, _⟩ := distAux_spec es a b _ j h
    simpa using h2

theorem linkCardBound_le (es : List (Nat × Nat)) :
    linkCardBound es ≤ es.length := by
  have h1 : (targets es).dedup.length ≤ (targets es).length :=
    List.Sublist.length_le (List.dedup_sublist _)
  have h2 : (targets es).length = es.length := List.length_map _ _
  rw [linkCardBound]
  omega

theorem reachable_distAux_some (es : List (Nat × Nat)) (a b : Nat)
    (h : Reachable es a b) :
    ∃ j, distAux es a b (linkCardBound es) = some j := by
  obtain ⟨l, hw⟩ := h
  obtain ⟨l', hw', _, hbound⟩ := walk_prune es l.length l a b (Nat.le_refl _) hw
  have hr : reachLeB es (linkCardBound es) a b = true :=
    (reachLeB_iff es _ a b).mpr ⟨l', hbound, hw'⟩
  obtain ⟨j, hj, _⟩ :=
    distAux_complete es a b (linkCardBound es) (linkCardBound es) (Nat.le_refl _) hr
  exact ⟨j, hj⟩

theorem distN_exists_walk (es : List (Nat × Nat)) (a b : Nat)
    (h : Reachable es a b) :
    ∃ l, Walk es a l b ∧ l.length = distN es a b := by
  obtain ⟨j, hj⟩ := reachable_distAux_some es a b h
  obtain ⟨h1, _, h3⟩ := distAux_spec es a b _ j hj
  obtain ⟨l, hl, hw⟩ := (reachLeB_iff es j a b).mp h1
  have hdist : distN es a b = j := by simp [distN, hj]
  rw [hdist]
  refine ⟨l, hw, ?_⟩
  by_contra hne
  have hlt : l.length < j := by omega
  have : reachLeB es l.length a b = true :=
    (reachLeB_iff es l.length a b).mpr ⟨l, Nat.le_refl _, hw⟩
  rw [h3 l.length hlt] at this
  cases this

theorem distN_min (es : List (Nat × Nat)) (a b : Nat) (l : List Nat)
    (hw : Walk es a l b) : distN es a b ≤ l.length := by
  obtain ⟨j, hj⟩ := reachable_distAux_some es a b ⟨l, hw⟩
  obtain ⟨_, _, h3⟩ := distAux_spec es a b _ j hj
  have hdist : distN es a b = j := by simp [distN, hj]
  rw [hdist]
  by_contra hlt
  push_neg at hlt
  have : reachLeB es l.length a b = true :=
    (reachLeB_iff es l.length a b).mpr ⟨l, Nat.le_refl _, hw⟩
  rw [h3 l.length hlt] at this
  cases this

theorem distN_pos (es : List (Nat × Nat)) (a b : Nat) (hne : a ≠ b)
    (h : Reachable es a b) : 1 ≤ distN es a b := by
  obtain ⟨l, hw, hlen⟩ := distN_exists_walk es a b h
  cases l with
  | nil => exact absurd hw hne
  | cons c cs => simp at hlen; omega

/-! ## BFS correctness -/

/-- What an in-queue BFS entry `(v, fh)` at ghost depth `d` means: either it
is the untouched start entry, or `fh` records an actual first hop `h` out of
`fr` from which a walk of `d - 1` further hops reaches `v`. -/
def EntryOK (es : List (Nat × Nat)) (fr v : Nat) (fh : Option Nat) (d : Nat) : Prop :=
  (fh = none ∧ v = fr ∧ d = 0) ∨
  (∃ h l, fh = some h ∧ (fr, h) ∈ es ∧ Walk es h l v ∧ l.length + 1 = d)

/-- The BFS loop invariant, with a ghost list `ds` of entry depths. -/
structure BfsInv (es : List (Nat × Nat)) (fr dst : Nat)
    (queue : List (Nat × Option Nat)) (visited : List Nat) (ds : List Nat) : Prop where
  len_eq : queue.length = ds.length
  start_mem : fr ∈ visited
  nodes_sub : ∀ x ∈ queue.map Prod.fst, x ∈ visited
  nodes_nodup : (queue.map Prod.fst).Nodup
  depth_sorted : ds.Pairwise (fun d₁ d₂ => d₁ ≤ d₂)
  depth_bounded : ∀ d0, ds.head? = some d0 → ∀ d' ∈ ds, d' ≤ d0 + 1
  entry_ok : ∀ v fh d, ((v, fh), d) ∈ queue.zip ds → EntryOK es fr v fh d
  entry_min : ∀ v fh d, ((v, fh), d) ∈ queue.zip ds →
    ∀ l, Walk es fr l v → d ≤ l.length
  frontier_vis : ∀ d0, ds.head? = some d0 →
    ∀ u l, Walk es fr l u → l.length ≤ d0 → u ∈ visited
  processed_succ : ∀ v, v ∈ visited → v ∉ queue.map Prod.fst →
    ∀ c, (v, c) ∈ es → c ∈ visited
  frontier_not_q : ∀ d0, ds.head? = some d0 →
    ∀ u l, Walk es fr l u → l.length < d0 → u ∉ queue.map Prod.fst
  dst_track : dst ∈ visited → dst ∈ queue.map Prod.fst

theorem zip_replicate_mem {α : Type} {l : List α} {c : Nat} :
    ∀ p ∈ l.zip (List.replicate l.length c), p.2 = c ∧ p.1 ∈ l := by
  induction l with
  | nil => intro p hp; simp at hp
  | cons a l ih =>
    intro p hp
    simp only [List.length_cons, List.replicate_succ, List.zip_cons_cons,
      List.mem_cons] at hp
    rcases hp with rfl | hp
    · exact ⟨rfl, by simp⟩
    · obtain ⟨h1, h2⟩ := ih p hp
      exact ⟨h1, by simp [h2]⟩

theorem mem_fst_exists_zip {α β : Type} :
    ∀ (l : List (α × β)) (ds : List Nat), l.length = ds.length →
      ∀ x ∈ l.map Prod.fst, ∃ y d, ((x, y), d) ∈ l.zip ds ∧ d ∈ ds := by
  intro l
  induction l with
  | nil => intro ds _ x hx; simp at hx
  | cons p l ih =>
    intro ds hlen x hx
    cases ds with
    | nil => simp at hlen
    | cons d ds' =>
      simp only [List.map_cons, List.mem_cons] at hx
      rcases hx with rfl | hx
      · exact ⟨p.2, d, by simp [List.zip_cons_cons], by simp⟩
      · obtain ⟨y, d', hmem, hd'⟩ := ih ds' (by simpa using hlen) x hx
        exact ⟨y, d', by simp [List.zip_cons_cons, hmem], by simp [hd']⟩

theorem visited_closed_walk (es : List (Nat × Nat)) (V : List Nat)
    (hcl : ∀ v ∈ V, ∀ c, (v, c) ∈ es → c ∈ V) :
    ∀ (l : List Nat) (a b : Nat), a ∈ V → Walk es a l b → b ∈ V := by
  intro l
  induction l with
  | nil => intro a b ha hw; cases hw; exact ha
  | cons c cs ih =>
    intro a b ha hw
    obtain ⟨hac, hw'⟩ := hw
    exact ih c b (hcl a ha c hac) hw'

/-- The invariant holds at the initial BFS state of `find_next_hop`. -/
theorem bfs_inv_init (es : List (Nat × Nat)) (fr dst : Nat) :
    BfsInv es fr dst [(fr, none)] [fr] [0] := by
  refine ⟨by simp, by simp, by simp, by simp, by simp, ?_, ?_, ?_, ?_, ?_, ?_, ?_⟩
  · intro d0 hd0 d' hd'
    simp at hd0 hd'
    omega
  · intro v fh d hmem
    simp at hmem
    obtain ⟨⟨rfl, rfl⟩, rfl⟩ := hmem
    exact Or.inl ⟨rfl, rfl, rfl⟩
  · intro v fh d hmem l hw
    simp at hmem
    obtain ⟨⟨rfl, rfl⟩, rfl⟩ := hmem
    exact Nat.zero_le _
  · intro d0 hd0 u l hw hl
    simp only [List.head?_cons, Option.some.injEq] at hd0
    have : l = [] := List.length_eq_zero.mp (by omega)
    subst this
    cases hw
    simp
  · intro v hv hnq c hc
    simp at hv hnq
    exact absurd hv hnq
  · intro d0 hd0 u l hw hl
    simp only [List.head?_cons, Option.some.injEq] at hd0
    omega
  · intro h
    simpa using h

/-- One BFS step (pop a non-target entry, expand its successors) preserves
the invariant, with the new entries at ghost depth `d + 1`. -/
theorem bfs_inv_step (es : List (Nat × Nat)) (fr dst v : Nat) (fh : Option Nat)
    (rest : List (Nat × Option Nat)) (visited : List Nat) (d : Nat) (ds' : List Nat)
    (hinv : BfsInv es fr dst ((v, fh) :: rest) visited (d :: ds'))
    (hvdst : v ≠ dst) :
    BfsInv es fr dst
      (rest ++ (expandBFS fh (outs es v) visited).1)
      (expandBFS fh (outs es v) visited).2
      (ds' ++ List.replicate (expandBFS fh (outs es v) visited).1.length (d + 1)) := by
  obtain ⟨hlen, hstart, hsub, hnodup, hsort, hbound, hok, hmin, hfv, hps, hfnq, hdt⟩ := hinv
  have hlen' : rest.length = ds'.length := by simpa using hlen
  have hhd : ((v, fh), d) ∈ ((v, fh) :: rest).zip (d :: ds') := by
    rw [List.zip_cons_cons]
    exact List.mem_cons_self _ _
  have htail : ∀ (x : Nat) (fh₂ : Option Nat) (d₂ : Nat),
      ((x, fh₂), d₂) ∈ rest.zip ds' →
        ((x, fh₂), d₂) ∈ ((v, fh) :: rest).zip (d :: ds') := by
    intro x fh₂ d₂ h
    rw [List.zip_cons_cons]
    exact List.mem_cons_of_mem _ h
  have hokv := hok v fh d hhd
  have hfresh : ∀ x ∈ (expandBFS fh (outs es v) visited).1.map Prod.fst,
      x ∈ outs es v ∧ x ∉ visited := expandBFS_fst_fresh fh (outs es v) visited
  have hmemsnd := expandBFS_mem_snd fh (outs es v) visited
  have hvsub : ∀ x ∈ visited, x ∈ (expandBFS fh (outs es v) visited).2 :=
    expandBFS_visited_subset fh (outs es v) visited
  have houts : ∀ t ∈ outs es v, t ∈ (expandBFS fh (outs es v) visited).2 :=
    fun t ht => expandBFS_outs_mem fh (outs es v) visited t ht
  have hqnodup := expandBFS_fst_nodup fh (outs es v) visited
  have hdle : ∀ d' ∈ ds', d ≤ d' := (List.pairwise_cons.mp hsort).1
  have hsort' : ds'.Pairwise (fun d₁ d₂ => d₁ ≤ d₂) := (List.pairwise_cons.mp hsort).2
  have hble : ∀ d' ∈ d :: ds', d' ≤ d + 1 := hbound d (by simp)
  have hrestdepth : ∀ x ∈ rest.map Prod.fst, ∃ fh₂ d₂,
      ((x, fh₂), d₂) ∈ rest.zip ds' ∧ d₂ ∈ ds' :=
    mem_fst_exists_zip rest ds' hlen'
  have hkey : (∀ d₂ ∈ ds', d + 1 ≤ d₂) → ∀ u (l : List Nat), Walk es fr l u →
      l.length ≤ d + 1 → u ∈ (expandBFS fh (outs es v) visited).2 := by
    intro hall u l hw hl
    by_cases hld : l.length ≤ d
    · exact hvsub u (hfv d (by simp) u l hw hld)
    · have hlen1 : l.length = d + 1 := by omega
      rcases List.eq_nil_or_concat l with rfl | ⟨l', x, rfl⟩
      · simp only [List.length_nil] at hlen1
        omega
      · rw [List.concat_eq_append] at hw hlen1
        obtain ⟨w, hw1, hw2⟩ := walk_append_mid es l' [x] fr u hw
        obtain ⟨hwu, hxu⟩ := hw2
        have hxu' : x = u := hxu
        have hl' : l'.length = d := by
          simp only [List.length_append, List.length_cons, List.length_nil] at hlen1
          omega
        have hwvis : w ∈ visited := hfv d (by simp) w l' hw1 (by omega)
        by_cases hwv : w = v
        · subst hwv
          exact hxu' ▸ houts x ((mem_outs es w x).mpr hwu)
        · by_cases hwrest : w ∈ rest.map Prod.fst
          · obtain ⟨fh₂, d₂, hz, hd₂⟩ := hrestdepth w hwrest
            have h1 : d₂ ≤ l'.length := hmin w fh₂ d₂ (htail _ _ _ hz) l' hw1
            have h2 : d + 1 ≤ d₂ := hall d₂ hd₂
            omega
          · have hwold : w ∉ ((v, fh) :: rest).map Prod.fst := by
              simp only [List.map_cons, List.mem_cons]
              push_neg
              exact ⟨hwv, hwrest⟩
            exact hxu' ▸ hvsub x (hps w hwvis hwold x hwu)
  refine ⟨?_, ?_, ?_, ?_, ?_, ?_, ?_, ?_, ?_, ?_, ?_, ?_⟩
  · simp [hlen']
  · exact hvsub fr hstart
  · intro x hx
    rw [List.map_append, List.mem_append] at hx
    rcases hx with hx | hx
    · exact hvsub x (hsub x (by simp [hx]))
    · exact (hmemsnd x).mpr (Or.inr hx)
  · rw [List.map_append]
    refine List.Nodup.append ?_ hqnodup ?_
    · exact (List.nodup_cons.mp (by simpa using hnodup)).2
    · intro a ha hb
      exact (hfresh a hb).2 (hsub a (by simp [ha]))
  · rw [List.pairwise_append]
    refine ⟨hsort', ?_, ?_⟩
    · rw [List.pairwise_replicate]
      right
      exact Nat.le_refl _
    · intro a ha b hb
      have hb' : b = d + 1 := (List.mem_replicate.mp hb).2
      have ha' : a ≤ d + 1 := hble a (by simp [ha])
      omega
  · intro d0 hd0 d' hd'
    rw [List.mem_append] at hd'
    rcases hds : ds' with _ | ⟨d₁, ds''⟩
    · rw [hds] at hd0 hd'
      simp only [List.nil_append] at hd0
      have hd0' : d0 = d + 1 := by
        cases hq : (expandBFS fh (outs es v) visited).1.length with
        | zero => rw [hq] at hd0; simp at hd0
        | succ n =>
          rw [hq, List.replicate_succ] at hd0
          simp at hd0
          omega
      rcases hd' with hd' | hd'
      · simp at hd'
      · have : d' = d + 1 := (List.mem_replicate.mp hd').2
        omega
    · rw [hds] at hd0
      simp only [List.cons_append, List.head?_cons, Option.some.injEq] at hd0
      have h1 : d ≤ d₁ := hdle d₁ (by rw [hds]; simp)
      rcases hd' with hd' | hd'
      · have h2 : d' ≤ d + 1 := hble d' (by simp [hd'])
        omega
      · have : d' = d + 1 := (List.mem_replicate.mp hd').2
        omega
  · intro x nh dx hmem
    rw [List.zip_append hlen', List.mem_append] at hmem
    rcases hmem with hmem | hmem
    · exact hok x nh dx (htail x nh dx hmem)
    · obtain ⟨hdx, hxq⟩ := zip_replicate_mem _ hmem
      obtain ⟨hnh, hxouts, hxfresh⟩ := expandBFS_entry fh (outs es v) visited x nh hxq
      have hvx : (v, x) ∈ es := (mem_outs es v x).mp hxouts
      rcases hokv with ⟨hfh, hvfr, hd0⟩ | ⟨h, l, hfh, hfrh, hwl, hlen2⟩
      · subst hfh
        refine Or.inr ⟨x, [], by simpa [bfsHop] using hnh, hvfr ▸ hvx, rfl, ?_⟩
        simp only [List.length_nil]
        omega
      · subst hfh
        refine Or.inr ⟨h, l ++ [x], by simpa [bfsHop] using hnh, hfrh,
          walk_snoc es l h v x hwl hvx, ?_⟩
        simp only [List.length_append, List.length_cons, List.length_nil]
        omega
  · intro x nh dx hmem l hw
    rw [List.zip_append hlen', List.mem_append] at hmem
    rcases hmem with hmem | hmem
    · exact hmin x nh dx (htail x nh dx hmem) l hw
    · obtain ⟨hdx, hxq⟩ := zip_replicate_mem _ hmem
      obtain ⟨_, _, hxfresh⟩ := expandBFS_entry fh (outs es v) visited x nh hxq
      by_contra hcon
      push_neg at hcon
      have : x ∈ visited := hfv d (by simp) x l hw (by omega)
      exact hxfresh this
  · intro d0 hd0 u l hw hl
    rcases hds : ds' with _ | ⟨d₁, ds''⟩
    · rw [hds] at hd0
      simp only [List.nil_append] at hd0
      have hd0' : d0 = d + 1 := by
        cases hq : (expandBFS fh (outs es v) visited).1.length with
        | zero => rw [hq] at hd0; simp at hd0
        | succ n =>
          rw [hq, List.replicate_succ] at hd0
          simp at hd0
          omega
      refine hkey ?_ u l hw (by omega)
      intro d₂ h
      rw [hds] at h
      simp at h
    · rw [hds] at hd0
      simp only [List.cons_append, List.head?_cons, Option.some.injEq] at hd0
      have h1 : d ≤ d₁ := hdle d₁ (by rw [hds]; simp)
      have h2 : d₁ ≤ d + 1 := hble d₁ (by rw [hds]; simp)
      by_cases hcase : d₁ = d + 1
      · refine hkey ?_ u l hw (by omega)
        intro d₂ hd₂
        rw [hds] at hd₂
        rw [hds] at hsort'
        rcases List.mem_cons.mp hd₂ with rfl | hd₂'
        · omega
        · have := (List.pairwise_cons.mp hsort').1 d₂ hd₂'
          omega
      · have hld : l.length ≤ d := by omega
        exact hvsub u (hfv d (by simp) u l hw hld)
  · intro w hw hnq c hc
    rcases (hmemsnd w).mp hw with hwvis | hwq
    · by_cases hwv : w = v
      · subst hwv
        exact houts c ((mem_outs es w c).mpr hc)
      · by_cases hwrest : w ∈ rest.map Prod.fst
        · exact absurd (by rw [List.map_append, List.mem_append]; exact Or.inl hwrest) hnq
        · have hwold : w ∉ ((v, fh) :: rest).map Prod.fst := by
            simp only [List.map_cons, List.mem_cons]
            push_neg
            exact ⟨hwv, hwrest⟩
          exact hvsub c (hps w hwvis hwold c hc)
    · exact absurd (by rw [List.map_append, List.mem_append]; exact Or.inr hwq) hnq
  · intro d0 hd0 u l hw hl hu
    rw [List.map_append, List.mem_append] at hu
    rcases hu with hu | hu
    · obtain ⟨fh₂, d₂, hz, hd₂⟩ := hrestdepth u hu
      have h1 : d₂ ≤ l.length := hmin u fh₂ d₂ (htail _ _ _ hz) l hw
      rcases hds : ds' with _ | ⟨d₁, ds''⟩
      · rw [hds] at hd₂
        simp at hd₂
      · rw [hds] at hd0
        simp only [List.cons_append, List.head?_cons, Option.some.injEq] at hd0
        have h2 : d₁ ≤ d₂ := by
          rw [hds] at hd₂ hsort'
          rcases List.mem_cons.mp hd₂ with rfl | h
          · omega
          · exact (List.pairwise_cons.mp hsort').1 d₂ h
        omega
    · have hfr' := (expandBFS_fst_fresh fh (outs es v) visited u hu).2
      have hd0le : d0 ≤ d + 1 := by
        rcases hds : ds' with _ | ⟨d₁, ds''⟩
        · rw [hds] at hd0
          simp only [List.nil_append] at hd0
          cases hq : (expandBFS fh (outs es v) visited).1.length with
          | zero => rw [hq] at hd0; simp at hd0
          | succ n =>
            rw [hq, List.replicate_succ] at hd0
            simp at hd0
            omega
        · rw [hds] at hd0
          simp only [List.cons_append, List.head?_cons, Option.some.injEq] at hd0
          have := hble d₁ (by rw [hds]; simp)
          omega
      exact hfr' (hfv d (by simp) u l hw (by omega))
  · intro hdv
    rcases (hmemsnd dst).mp hdv with h | h
    · have := hdt h
      rw [List.map_cons, List.mem_cons] at this
      rcases this with h' | h'
      · exact absurd h'.symm hvdst
      · rw [List.map_append, List.mem_append]
        exact Or.inl h'
    · rw [List.map_append, List.mem_append]
      exact Or.inr h

/-- When the BFS queue empties without meeting the target, either the
search started at the target or the target is unreachable. -/
theorem bfs_empty_done (es : List (Nat × Nat)) (fr dst : Nat) (visited ds : List Nat)
    (hinv : BfsInv es fr dst [] visited ds) :
    fr = dst ∨ ¬ Reachable es fr dst := by
  by_cases h : fr = dst
  · exact Or.inl h
  · refine Or.inr ?_
    rintro ⟨l, hw⟩
    have hcl : ∀ v ∈ visited, ∀ c, (v, c) ∈ es → c ∈ visited := by
      intro v hv c hc
      exact hinv.processed_succ v hv (by simp) c hc
    have hdst : dst ∈ visited :=
      visited_closed_walk es visited hcl l fr dst hinv.start_mem hw
    have := hinv.dst_track hdst
    simp at this

/-- Main BFS theorem: under the invariant, the loop answers `none` exactly
in the trivial or unreachable cases, and any answer `some n` is a real
first hop on a minimum-hop-count path to the target. -/
theorem bfsLoop_ok (es : List (Nat × Nat)) (fr dst : Nat) :
    ∀ (N : Nat) (queue : List (Nat × Option Nat)) (visited ds : List Nat),
      2 * unvis es visited + queue.length ≤ N →
      BfsInv es fr dst queue visited ds →
      ((bfsLoop es dst N queue visited = none → fr = dst ∨ ¬ Reachable es fr dst) ∧
       (∀ n, bfsLoop es dst N queue visited = some n →
          (fr, n) ∈ es ∧ ∃ k, PathLen es n dst k ∧ PathLen es fr dst (k + 1) ∧
            ∀ m, PathLen es fr dst m → k + 1 ≤ m)) := by
  intro N
  induction N with
  | zero =>
    intro queue visited ds hN hinv
    cases queue with
    | nil =>
      constructor
      · intro _
        exact bfs_empty_done es fr dst visited ds hinv
      · intro n hn
        rw [bfsLoop] at hn
        cases hn
    | cons p rest =>
      exfalso
      simp only [List.length_cons] at hN
      omega
  | succ N ih =>
    intro queue visited ds hN hinv
    cases queue with
    | nil =>
      constructor
      · intro _
        exact bfs_empty_done es fr dst visited ds hinv
      · intro n hn
        rw [bfsLoop] at hn
        cases hn
    | cons p rest =>
      obtain ⟨v, fh⟩ := p
      cases ds with
      | nil =>
        have := hinv.len_eq
        simp at this
      | cons d ds' =>
        have hhd : ((v, fh), d) ∈ ((v, fh) :: rest).zip (d :: ds') := by
          rw [List.zip_cons_cons]
          exact List.mem_cons_self _ _
        have hokv := hinv.entry_ok v fh d hhd
        have hminv := hinv.entry_min v fh d hhd
        by_cases hvd : v = dst
        · rw [hvd] at hokv hminv
          have hres : bfsLoop es dst (N + 1) ((v, fh) :: rest) visited = fh := by
            rw [bfsLoop]
            rw [if_pos hvd]
          constructor
          · intro hnone
            rw [hres] at hnone
            rcases hokv with ⟨_, hvfr, _⟩ | ⟨h, l, hfh, _, _, _⟩
            · exact Or.inl hvfr.symm
            · rw [hfh] at hnone
              cases hnone
          · intro n hn
            rw [hres] at hn
            rcases hokv with ⟨hfhn, _, _⟩ | ⟨h, l, hfh, hfrh, hwl, hlen2⟩
            · rw [hfhn] at hn
              cases hn
            · rw [hfh] at hn
              have hhn : h = n := by
                cases hn
                rfl
              subst hhn
              refine ⟨hfrh, l.length, ⟨l, rfl, hwl⟩, ⟨h :: l, by simp, hfrh, hwl⟩, ?_⟩
              rintro m ⟨lw, hlw, hwlw⟩
              have := hminv lw hwlw
              omega
        · have hstep := bfs_inv_step es fr dst v fh rest visited d ds' hinv hvd
          have hres : bfsLoop es dst (N + 1) ((v, fh) :: rest) visited =
              bfsLoop es dst N (rest ++ (expandBFS fh (outs es v) visited).1)
                (expandBFS fh (outs es v) visited).2 := by
            rw [bfsLoop]
            rw [if_neg hvd]
          have hmeas := expandBFS_measure es fh (outs es v) visited
            (outs_subset_targets es v)
          have hN' : 2 * unvis es (expandBFS fh (outs es v) visited).2 +
              (rest ++ (expandBFS fh (outs es v) visited).1).length ≤ N := by
            simp only [List.length_append]
            simp only [List.length_cons] at hN
            omega
          rw [hres]
          exact ih (rest ++ (expandBFS fh (outs es v) visited).1)
            (expandBFS fh (outs es v) visited).2
            (ds' ++ List.replicate (expandBFS fh (outs es v) visited).1.length (d + 1))
            hN' hstep

/-- Correctness of `find_next_hop`, packaged. -/
theorem find_next_hop_ok (links : List NetworkLink) (fr dst : Nat) :
    (find_next_hop links fr dst = none →
      fr = dst ∨ ¬ Reachable (edges links) fr dst) ∧
    (∀ n, find_next_hop links fr dst = some n →
      (fr, n) ∈ edges links ∧ ∃ k, PathLen (edges links) n dst k ∧
        PathLen (edges links) fr dst (k + 1) ∧
        ∀ m, PathLen (edges links) fr dst m → k + 1 ≤ m) := by
  have h := bfsLoop_ok (edges links) fr dst (2 * unvis (edges links) [fr] + 1)
    [(fr, none)] [fr] [0] (by simp) (bfs_inv_init (edges links) fr dst)
  exact h

theorem find_next_hop_none_iff (links : List NetworkLink) (fr dst : Nat)
    (hne : fr ≠ dst) :
    find_next_hop links fr dst = none ↔ ¬ Reachable (edges links) fr dst := by
  constructor
  · intro h
    rcases (find_next_hop_ok links fr dst).1 h with h' | h'
    · exact absurd h' hne
    · exact h'
  · intro h
    cases hr : find_next_hop links fr dst with
    | none => rfl
    | some n =>
      obtain ⟨_, k, _, ⟨l, _, hw⟩, _⟩ := (find_next_hop_ok links fr dst).2 n hr
      exact absurd ⟨l, hw⟩ h

theorem find_next_hop_some_ne (links : List NetworkLink) (fr dst n : Nat)
    (h : find_next_hop links fr dst = some n) : fr ≠ dst := by
  intro he
  subst he
  rw [find_next_hop_self] at h
  cases h

/-- A successful next-hop lookup decreases the shortest hop distance to the
destination by exactly one. -/
theorem find_next_hop_distN (links : List NetworkLink) (fr dst n : Nat)
    (h : find_next_hop links fr dst = some n) :
    distN (edges links) fr dst = distN (edges links) n dst + 1 ∧
      (fr, n) ∈ edges links ∧ Reachable (edges links) n dst := by
  obtain ⟨hedge, k, hnk, hfk, hminp⟩ := (find_next_hop_ok links fr dst).2 n h
  obtain ⟨ln, hln, hwn⟩ := hnk
  obtain ⟨lf, hlf, hwf⟩ := hfk
  have hreach : Reachable (edges links) n dst := ⟨ln, hwn⟩
  have hfr : distN (edges links) fr dst = k + 1 := by
    have h1 : distN (edges links) fr dst ≤ k + 1 := by
      have := distN_min (edges links) fr dst lf hwf
      omega
    have h2 : k + 1 ≤ distN (edges links) fr dst := by
      obtain ⟨l, hw, hlen⟩ := distN_exists_walk (edges links) fr dst ⟨lf, hwf⟩
      exact hlen ▸ hminp l.length ⟨l, rfl, hw⟩
    omega
  have hn : distN (edges links) n dst = k := by
    have h1 : distN (edges links) n dst ≤ k := by
      have := distN_min (edges links) n dst ln hwn
      omega
    have h2 : k ≤ distN (edges links) n dst := by
      by_contra hc
      push_neg at hc
      obtain ⟨l, hw, hlen⟩ := distN_exists_walk (edges links) n dst hreach
      have hwf' : Walk (edges links) fr (n :: l) dst := ⟨hedge, hw⟩
      have := hminp (n :: l).length ⟨n :: l, rfl, hwf'⟩
      simp only [List.length_cons] at this
      omega
    omega
  rw [hfr, hn]
  exact ⟨rfl, hedge, hreach⟩

/-! ## The event heap and the simulation operations -/

/-- Pop a minimum-time event — the Rust `BinaryHeap::pop` under the
reversed `Ord` on `time`.  Ties resolve deterministically to the
earliest-listed element, standing in for the heap's unspecified tie
order. -/
def popMin : List Event → Option (Event × List Event)
  | [] => none
  | e :: rest =>
    match popMin rest with
    | none => some (e, [])
    | some (m, rest') =>
      if e.time ≤ m.time then some (e, rest) else some (m, e :: rest')

theorem popMin_none_iff (l : List Event) : popMin l = none ↔ l = [] := by
  cases l with
  | nil => simp [popMin]
  | cons e rest =>
    simp only [popMin]
    cases popMin rest with
    | none => simp
    | some p =>
      obtain ⟨m, rest'⟩ := p
      by_cases h : e.time ≤ m.time <;> simp [h]

theorem popMin_perm (l : List Event) :
    ∀ e l', popMin l = some (e, l') → l.Perm (e :: l') := by
  induction l with
  | nil => intro e l' h; simp [popMin] at h
  | cons a rest ih =>
    intro e l' h
    simp only [popMin] at h
    cases hrec : popMin rest with
    | none =>
      rw [hrec] at h
      have : rest = [] := (popMin_none_iff rest).mp hrec
      subst this
      simp only [Option.some.injEq, Prod.mk.injEq] at h
      obtain ⟨rfl, rfl⟩ := h
      exact List.Perm.refl _
    | some p =>
      obtain ⟨m, rest'⟩ := p
      rw [hrec] at h
      have h' : (if a.time ≤ m.time then some (a, rest)
          else some (m, a :: rest')) = some (e, l') := h
      by_cases ht : a.time ≤ m.time
      · rw [if_pos ht] at h'
        simp only [Option.some.injEq, Prod.mk.injEq] at h'
        obtain ⟨rfl, rfl⟩ := h'
        exact List.Perm.refl _
      · rw [if_neg ht] at h'
        simp only [Option.some.injEq, Prod.mk.injEq] at h'
        obtain ⟨he, hl⟩ := h'
        subst he
        subst hl
        have hp : rest.Perm (m :: rest') := ih m rest' hrec
        have h1 : (a :: rest).Perm (a :: m :: rest') := hp.cons a
        have h2 : (a :: m :: rest').Perm (m :: a :: rest') := List.Perm.swap m a rest'
        exact h1.trans h2

theorem popMin_min (l : List Event) :
    ∀ e l', popMin l = some (e, l') → ∀ x ∈ l, e.time ≤ x.time := by
  induction l with
  | nil => intro e l' h; simp [popMin] at h
  | cons a rest ih =>
    intro e l' h x hx
    simp only [popMin] at h
    cases hrec : popMin rest with
    | none =>
      rw [hrec] at h
      have : rest = [] := (popMin_none_iff rest).mp hrec
      subst this
      simp only [Option.some.injEq, Prod.mk.injEq] at h
      obtain ⟨rfl, rfl⟩ := h
      simp at hx
      rw [hx]
    | some p =>
      obtain ⟨m, rest'⟩ := p
      rw [hrec] at h
      have h' : (if a.time ≤ m.time then some (a, rest)
          else some (m, a :: rest')) = some (e, l') := h
      by_cases ht : a.time ≤ m.time
      · rw [if_pos ht] at h'
        simp only [Option.some.injEq, Prod.mk.injEq] at h'
        obtain ⟨rfl, rfl⟩ := h'
        rcases List.mem_cons.mp hx with rfl | hx'
        · exact le_refl _
        · exact le_trans ht (ih m rest' hrec x hx')
      · rw [if_neg ht] at h'
        simp only [Option.some.injEq, Prod.mk.injEq] at h'
        obtain ⟨he, hl⟩ := h'
        subst he
        subst hl
        rcases List.mem_cons.mp hx with rfl | hx'
        · exact le_of_not_le ht
        · exact ih m rest' hrec x hx'

/-- Node lookup in a `HashMap`-like store. -/
def lookupServer (servers : List Server) (n : Nat) : Option Server :=
  servers.find? (fun s => s.id == n)

/-- Node lookup for clients. -/
def lookupClient (clients : List Client) (n : Nat) : Option Client :=
  clients.find? (fun c => c.id == n)

/-- `HashMap::insert` keyed by id: replace the entry with the same key if
present, otherwise add the new entry. -/
def insertById {α : Type} (getId : α → Nat) : List α → α → List α
  | [], x => [x]
  | y :: ys, x => if getId y = getId x then x :: ys else y :: insertById getId ys x

/-- `NetworkSimulation::add_server`: `self.servers.insert(server.id, server)`. -/
def add_server (sim : NetworkSimulation) (server : Server) : NetworkSimulation :=
  { sim with servers := insertById Server.id sim.servers server }

/-- `NetworkSimulation::add_client`: `self.clients.insert(client.id, client)`. -/
def add_client (sim : NetworkSimulation) (client : Client) : NetworkSimulation :=
  { sim with clients := insertById Client.id sim.clients client }

/-- The §4.4 link-queuing contract, written from the spec's words:
slot start is `max(request_time, queue_horizon)`, duration is
`size_bytes*8 / bandwidth`, arrival is slot start plus propagation latency
plus duration. -/
def reserve_transmission (link : NetworkLink) (request_time : ℚ)
    (size_bytes : Nat) : ℚ × ℚ :=
  let dur := ((size_bytes : ℚ) * 8) / link.bandwidth
  let start := max request_time link.queue_end_time
  (start + link.latency + dur, dur)

/-- The body of `links.iter_mut().find(|l| l.from == from && l.to == next_hop)`
followed by the in-place reservation: find the first matching link, compute
the arrival time, advance its `queue_end_time` (latency excluded), leave
every other link untouched.  Returns `none` when no link matches. -/
def reserveOnFirst : List NetworkLink → Nat → Nat → ℚ → Nat →
    Option (ℚ × List NetworkLink)
  | [], _, _, _, _ => none
  | l :: ls, fr, nh, ct, size =>
    if l.from_ = fr ∧ l.to_ = nh then
      some (max ct l.queue_end_time + l.latency + l.transmission_time size,
        { l with queue_end_time := max ct l.queue_end_time + l.transmission_time size } :: ls)
    else
      match reserveOnFirst ls fr nh ct size with
      | none => none
      | some (a, ls') => some (a, l :: ls')

/-- `NetworkSimulation::send_packet_ex`. -/
def send_packet_ex (sim : NetworkSimulation) (fr dst : Nat) (size_bytes : Nat)
    (p_type : PacketType) : NetworkSimulation :=
  let packet : DataPacket :=
    { id := sim.completed_packets.length + sim.event_queue.length
      source_id := fr
      destination_id := dst
      size_bytes := size_bytes
      created_at := sim.current_time
      packet_type := p_type }
  match find_next_hop sim.links fr dst with
  | none => sim
  | some next_hop =>
    match reserveOnFirst sim.links fr next_hop sim.current_time size_bytes with
    | none => sim
    | some (arrival_time, links') =>
      { sim with
        links := links'
        event_queue := sim.event_queue ++
          [{ time := arrival_time, packet := packet,
             event_type := EventType.PacketArrival next_hop }] }

/-- The body of the scheduler's `match event.event_type` (the state passed
in already has the event popped and `current_time` advanced). -/
def processEvent (sim : NetworkSimulation) (event : Event) : NetworkSimulation :=
  match event.event_type with
  | EventType.PacketArrival node_id =>
    if node_id = event.packet.destination_id then
      let latency := sim.current_time - event.packet.created_at
      let sim1 :=
        match event.packet.packet_type with
        | PacketType.TcpSyn =>
          send_packet_ex sim node_id event.packet.source_id 64 PacketType.TcpSynAck
        | PacketType.TcpSynAck =>
          send_packet_ex sim node_id event.packet.source_id 64 PacketType.TcpAck
        | PacketType.CdnRequest =>
          send_packet_ex sim node_id event.packet.source_id 1024 PacketType.CdnResponse
        | _ => sim
      { sim1 with completed_packets := sim1.completed_packets ++ [(event.packet, latency)] }
    else
      let delay :=
        match lookupServer sim.servers node_id with
        | some s => s.processing_delay
        | none => 0
      { sim with
        event_queue := sim.event_queue ++
          [{ time := sim.current_time + delay, packet := event.packet,
             event_type := EventType.PacketTransmissionComplete node_id }] }
  | EventType.PacketTransmissionComplete node_id =>
    match find_next_hop sim.links node_id event.packet.destination_id with
    | none => sim
    | some next_hop =>
      match reserveOnFirst sim.links node_id next_hop sim.current_time
          event.packet.size_bytes with
      | none => sim
      | some (arrival_time, links') =>
        { sim with
          links := links'
          event_queue := sim.event_queue ++
            [{ time := arrival_time, packet := event.packet,
               event_type := EventType.PacketArrival next_hop }] }

/-- The scheduler loop of `run_simulation`, with explicit fuel.  Note that
when the popped event exceeds the horizon the loop `break`s *after* the
pop, so that event is dropped from the pending collection. -/
def runFuel : Nat → NetworkSimulation → ℚ → NetworkSimulation
  | 0, sim, _ => sim
  | n + 1, sim, duration =>
    match popMin sim.event_queue with
    | none => sim
    | some (event, rest) =>
      if duration < event.time then { sim with event_queue := rest }
      else
        runFuel n
          (processEvent { sim with current_time := event.time, event_queue := rest } event)
          duration

/-- Reply potential: fuel consumed by the scripted reply chain a finalized
packet of this type can still trigger (`L` is the link count). -/
def replyPot (L : Nat) : PacketType → Nat
  | PacketType.TcpSyn => 4 * L + 6
  | PacketType.TcpSynAck => 2 * L + 3
  | PacketType.CdnRequest => 2 * L + 3
  | _ => 0

/-- Potential of one pending event: an upper bound on the loop iterations
it can still cause. -/
def potE (es : List (Nat × Nat)) (L : Nat) (e : Event) : Nat :=
  match e.event_type with
  | EventType.PacketArrival n =>
    if n = e.packet.destination_id then 1 + replyPot L e.packet.packet_type
    else 2 + 2 * distN es n e.packet.destination_id + replyPot L e.packet.packet_type
  | EventType.PacketTransmissionComplete n =>
    1 + 2 * distN es n e.packet.destination_id + replyPot L e.packet.packet_type

/-- Total potential of the pending-event collection: enough fuel for the
whole run. -/
def totalPot (sim : NetworkSimulation) : Nat :=
  (sim.event_queue.map (potE (edges sim.links) sim.links.length)).sum

/-- `NetworkSimulation::run_simulation`: the while-loop, run with
provably sufficient fuel. -/
def run_simulation (sim : NetworkSimulation) (duration : ℚ) : NetworkSimulation :=
  runFuel (totalPot sim) sim duration

/-- The loop's stopping condition: no pending event at or before the
horizon. -/
def SimDone (sim : NetworkSimulation) (duration : ℚ) : Bool :=
  match popMin sim.event_queue with
  | none => true
  | some (e, _) => decide (duration < e.time)

/-- The protocol reply table, written from the spec's words (§4.6):
arriving tag to reply size and tag. -/
def replySpec : PacketType → Option (Nat × PacketType)
  | PacketType.TcpSyn => some (64, PacketType.TcpSynAck)
  | PacketType.TcpSynAck => some (64, PacketType.TcpAck)
  | PacketType.CdnRequest => some (1024, PacketType.CdnResponse)
  | _ => none

/-! ## Structural lemmas about the state operations -/

theorem reserveOnFirst_none_iff (fr nh : Nat) (ct : ℚ) (size : Nat) :
    ∀ ls : List NetworkLink, reserveOnFirst ls fr nh ct size = none ↔
      ∀ x ∈ ls, ¬(x.from_ = fr ∧ x.to_ = nh) := by
  intro ls
  induction ls with
  | nil => simp [reserveOnFirst]
  | cons l ls ih =>
    simp only [reserveOnFirst]
    by_cases h : l.from_ = fr ∧ l.to_ = nh
    · rw [if_pos h]
      constructor
      · intro habs
        exact absurd habs (by simp)
      · intro hall
        exact absurd h (hall l (by simp))
    · rw [if_neg h]
      cases hrec : reserveOnFirst ls fr nh ct size with
      | none =>
        constructor
        · intro _ x hx
          rcases List.mem_cons.mp hx with rfl | hx'
          · exact h
          · exact (ih.mp hrec) x hx'
        · intro _
          rfl
      | some p =>
        obtain ⟨a, ls'⟩ := p
        constructor
        · intro habs
          exact Option.noConfusion habs
        · intro hall
          have := ih.mpr (fun x hx => hall x (List.mem_cons_of_mem _ hx))
          rw [hrec] at this
          cases this

theorem reserveOnFirst_spec (fr nh : Nat) (ct : ℚ) (size : Nat) :
    ∀ (pre : List NetworkLink) (l : NetworkLink) (post : List NetworkLink),
      (∀ x ∈ pre, ¬(x.from_ = fr ∧ x.to_ = nh)) → l.from_ = fr → l.to_ = nh →
      reserveOnFirst (pre ++ l :: post) fr nh ct size =
        some (max ct l.queue_end_time + l.latency + l.transmission_time size,
          pre ++ { l with queue_end_time := max ct l.queue_end_time + l.transmission_time size } :: post) := by
  intro pre
  induction pre with
  | nil =>
    intro l post _ h1 h2
    simp only [List.nil_append, reserveOnFirst]
    rw [if_pos ⟨h1, h2⟩]
  | cons p pre ih =>
    intro l post hpre h1 h2
    simp only [List.cons_append, reserveOnFirst]
    rw [if_neg (hpre p (by simp))]
    simp only [List.append_eq]
    rw [ih l post (fun x hx => hpre x (by simp [hx])) h1 h2]

theorem reserveOnFirst_decomp (fr nh : Nat) (ct : ℚ) (size : Nat) :
    ∀ (ls : List NetworkLink) (a : ℚ) (ls' : List NetworkLink),
      reserveOnFirst ls fr nh ct size = some (a, ls') →
      ∃ pre l post, ls = pre ++ l :: post ∧
        (∀ x ∈ pre, ¬(x.from_ = fr ∧ x.to_ = nh)) ∧
        l.from_ = fr ∧ l.to_ = nh ∧
        a = max ct l.queue_end_time + l.latency + l.transmission_time size ∧
        ls' = pre ++ { l with queue_end_time := max ct l.queue_end_time + l.transmission_time size } :: post := by
  intro ls
  induction ls with
  | nil => intro a ls' h; simp [reserveOnFirst] at h
  | cons l ls ih =>
    intro a ls' h
    simp only [reserveOnFirst] at h
    by_cases hc : l.from_ = fr ∧ l.to_ = nh
    · rw [if_pos hc] at h
      simp only [Option.some.injEq, Prod.mk.injEq] at h
      obtain ⟨rfl, rfl⟩ := h
      exact ⟨[], l, ls, by simp, by simp, hc.1, hc.2, rfl, rfl⟩
    · rw [if_neg hc] at h
      cases hrec : reserveOnFirst ls fr nh ct size with
      | none =>
        rw [hrec] at h
        exact Option.noConfusion h
      | some p =>
        obtain ⟨a', ls''⟩ := p
        rw [hrec] at h
        have h' : some (a', l :: ls'') = some (a, ls') := h
        simp only [Option.some.injEq, Prod.mk.injEq] at h'
        obtain ⟨rfl, rfl⟩ := h'
        obtain ⟨pre, lk, post, rfl, hpre, hf, ht, ha, rfl⟩ := ih a' ls'' hrec
        refine ⟨l :: pre, lk, post, by simp, ?_, hf, ht, ha, by simp⟩
        intro x hx
        rcases List.mem_cons.mp hx with rfl | hx'
        · exact hc
        · exact hpre x hx'

theorem reserveOnFirst_isSome (ls : List NetworkLink) (fr nh : Nat) (ct : ℚ)
    (size : Nat) (h : (fr, nh) ∈ edges ls) :
    ∃ a ls', reserveOnFirst ls fr nh ct size = some (a, ls') := by
  cases hr : reserveOnFirst ls fr nh ct size with
  | some p =>
    obtain ⟨a, ls'⟩ := p
    exact ⟨a, ls', rfl⟩
  | none =>
    rcases List.mem_map.mp h with ⟨l, hl, he⟩
    have h1 : l.from_ = fr := by
      have := congrArg Prod.fst he
      simpa using this
    have h2 : l.to_ = nh := by
      have := congrArg Prod.snd he
      simpa using this
    exact absurd ⟨h1, h2⟩ ((reserveOnFirst_none_iff fr nh ct size ls).mp hr l hl)

theorem reserveOnFirst_edges (fr nh : Nat) (ct : ℚ) (size : Nat)
    (ls : List NetworkLink) (a : ℚ) (ls' : List NetworkLink)
    (h : reserveOnFirst ls fr nh ct size = some (a, ls')) :
    edges ls' = edges ls ∧ ls'.length = ls.length := by
  obtain ⟨pre, l, post, rfl, _, _, _, _, rfl⟩ :=
    reserveOnFirst_decomp fr nh ct size ls a ls' h
  constructor
  · simp [edges]
  · simp

/-- Pointwise relation between a link list and its successor state: all
static fields preserved, `queue_end_time` non-decreasing. -/
def LinkMono (old new : NetworkLink) : Prop :=
  new.from_ = old.from_ ∧ new.to_ = old.to_ ∧ new.distance = old.distance ∧
  new.latency = old.latency ∧ new.bandwidth = old.bandwidth ∧
  old.queue_end_time ≤ new.queue_end_time

theorem linkMono_refl (l : NetworkLink) : LinkMono l l :=
  ⟨rfl, rfl, rfl, rfl, rfl, le_refl _⟩

theorem linkMono_trans {a b c : NetworkLink} (h1 : LinkMono a b) (h2 : LinkMono b c) :
    LinkMono a c := by
  obtain ⟨e1, e2, e3, e4, e5, le1⟩ := h1
  obtain ⟨f1, f2, f3, f4, f5, le2⟩ := h2
  exact ⟨f1.trans e1, f2.trans e2, f3.trans e3, f4.trans e4, f5.trans e5, le1.trans le2⟩

theorem forall2_linkMono_refl (ls : List NetworkLink) :
    List.Forall₂ LinkMono ls ls :=
  List.forall₂_same.mpr (fun x _ => linkMono_refl x)

theorem forall2_linkMono_trans :
    ∀ {a b c : List NetworkLink}, List.Forall₂ LinkMono a b →
      List.Forall₂ LinkMono b c → List.Forall₂ LinkMono a c := by
  intro a b c h1
  induction h1 generalizing c with
  | nil =>
    intro h2
    cases h2
    exact List.Forall₂.nil
  | cons hab htail ih =>
    intro h2
    cases h2 with
    | cons hbc htail2 => exact List.Forall₂.cons (linkMono_trans hab hbc) (ih htail2)

theorem forall2_linkMono_bw {ls ls' : List NetworkLink}
    (h : List.Forall₂ LinkMono ls ls') (hbw : ∀ x ∈ ls, 0 < x.bandwidth) :
    ∀ x ∈ ls', 0 < x.bandwidth := by
  induction h with
  | nil => intro x hx; simp at hx
  | cons hab htail ih =>
    intro x hx
    rcases List.mem_cons.mp hx with rfl | hx'
    · rw [hab.2.2.2.2.1]
      exact hbw _ (by simp)
    · exact ih (fun y hy => hbw y (List.mem_cons_of_mem _ hy)) x hx'

theorem transmission_time_nonneg (l : NetworkLink) (size : Nat)
    (hbw : 0 < l.bandwidth) : 0 ≤ l.transmission_time size := by
  unfold NetworkLink.transmission_time
  apply div_nonneg
  · positivity
  · exact le_of_lt hbw

theorem reserveOnFirst_mono (fr nh : Nat) (ct : ℚ) (size : Nat)
    (ls : List NetworkLink) (a : ℚ) (ls' : List NetworkLink)
    (h : reserveOnFirst ls fr nh ct size = some (a, ls'))
    (hbw : ∀ x ∈ ls, 0 < x.bandwidth) :
    List.Forall₂ LinkMono ls ls' := by
  obtain ⟨pre, l, post, rfl, hpre, hf, ht, ha, rfl⟩ :=
    reserveOnFirst_decomp fr nh ct size ls a ls' h
  refine List.rel_append (forall2_linkMono_refl pre)
    (List.Forall₂.cons ⟨rfl, rfl, rfl, rfl, rfl, ?_⟩ (forall2_linkMono_refl post))
  have h0 : 0 ≤ l.transmission_time size :=
    transmission_time_nonneg l size (hbw l (by simp))
  exact le_trans (le_max_right ct l.queue_end_time) (le_add_of_nonneg_right h0)

/-! Branch equations for `send_packet_ex` and `processEvent`. -/

theorem send_packet_ex_none (sim : NetworkSimulation) (fr dst size : Nat)
    (t : PacketType) (h : find_next_hop sim.links fr dst = none) :
    send_packet_ex sim fr dst size t = sim := by
  simp only [send_packet_ex, h]

theorem send_packet_ex_res_none (sim : NetworkSimulation) (fr dst size : Nat)
    (t : PacketType) (nh : Nat) (h1 : find_next_hop sim.links fr dst = some nh)
    (h2 : reserveOnFirst sim.links fr nh sim.current_time size = none) :
    send_packet_ex sim fr dst size t = sim := by
  simp only [send_packet_ex, h1, h2]

/-- The packet literal that `send_packet_ex` constructs. -/
def sentPacket (sim : NetworkSimulation) (fr dst size : Nat) (t : PacketType) :
    DataPacket :=
  { id := sim.completed_packets.length + sim.event_queue.length
    source_id := fr
    destination_id := dst
    size_bytes := size
    created_at := sim.current_time
    packet_type := t }

theorem send_packet_ex_some (sim : NetworkSimulation) (fr dst size : Nat)
    (t : PacketType) (nh : Nat) (a : ℚ) (ls' : List NetworkLink)
    (h1 : find_next_hop sim.links fr dst = some nh)
    (h2 : reserveOnFirst sim.links fr nh sim.current_time size = some (a, ls')) :
    send_packet_ex sim fr dst size t =
      { sim with
        links := ls'
        event_queue := sim.event_queue ++
          [{ time := a, packet := sentPacket sim fr dst size t,
             event_type := EventType.PacketArrival nh }] } := by
  simp only [send_packet_ex, sentPacket, h1, h2]

theorem processEvent_tc_none (sim : NetworkSimulation) (e : Event) (n : Nat)
    (he : e.event_type = EventType.PacketTransmissionComplete n)
    (h1 : find_next_hop sim.links n e.packet.destination_id = none) :
    processEvent sim e = sim := by
  simp only [processEvent, he, h1]

theorem processEvent_tc_res_none (sim : NetworkSimulation) (e : Event) (n nh : Nat)
    (he : e.event_type = EventType.PacketTransmissionComplete n)
    (h1 : find_next_hop sim.links n e.packet.destination_id = some nh)
    (h2 : reserveOnFirst sim.links n nh sim.current_time e.packet.size_bytes = none) :
    processEvent sim e = sim := by
  simp only [processEvent, he, h1, h2]

theorem processEvent_tc_some (sim : NetworkSimulation) (e : Event) (n nh : Nat)
    (a : ℚ) (ls' : List NetworkLink)
    (he : e.event_type = EventType.PacketTransmissionComplete n)
    (h1 : find_next_hop sim.links n e.packet.destination_id = some nh)
    (h2 : reserveOnFirst sim.links n nh sim.current_time e.packet.size_bytes = some (a, ls')) :
    processEvent sim e =
      { sim with
        links := ls'
        event_queue := sim.event_queue ++
          [{ time := a, packet := e.packet,
             event_type := EventType.PacketArrival nh }] } := by
  simp only [processEvent, he, h1, h2]

theorem processEvent_arrival_fwd (sim : NetworkSimulation) (e : Event) (n : Nat)
    (he : e.event_type = EventType.PacketArrival n)
    (hd : ¬ n = e.packet.destination_id) :
    processEvent sim e =
      { sim with
        event_queue := sim.event_queue ++
          [{ time := sim.current_time +
               (match lookupServer sim.servers n with
                | some s => s.processing_delay
                | none => 0),
             packet := e.packet,
             event_type := EventType.PacketTransmissionComplete n }] } := by
  simp only [processEvent, he, if_neg hd]

theorem processEvent_arrival_dest (sim : NetworkSimulation) (e : Event) (n : Nat)
    (he : e.event_type = EventType.PacketArrival n)
    (hd : n = e.packet.destination_id) :
    processEvent sim e =
      (let sim1 := (match replySpec e.packet.packet_type with
        | some (sz, t') => send_packet_ex sim n e.packet.source_id sz t'
        | none => sim);
      { sim1 with completed_packets := sim1.completed_packets ++
          [(e.packet, sim.current_time - e.packet.created_at)] }) := by
  cases hp : e.packet.packet_type <;>
    simp only [processEvent, he, hp, replySpec, if_pos hd]

theorem send_packet_ex_links_mono (sim : NetworkSimulation) (fr dst size : Nat)
    (t : PacketType) (hbw : ∀ x ∈ sim.links, 0 < x.bandwidth) :
    List.Forall₂ LinkMono sim.links (send_packet_ex sim fr dst size t).links := by
  cases h1 : find_next_hop sim.links fr dst with
  | none =>
    rw [send_packet_ex_none sim fr dst size t h1]
    exact forall2_linkMono_refl _
  | some nh =>
    cases h2 : reserveOnFirst sim.links fr nh sim.current_time size with
    | none =>
      rw [send_packet_ex_res_none sim fr dst size t nh h1 h2]
      exact forall2_linkMono_refl _
    | some p =>
      obtain ⟨a, ls'⟩ := p
      rw [send_packet_ex_some sim fr dst size t nh a ls' h1 h2]
      exact reserveOnFirst_mono fr nh sim.current_time size sim.links a ls' h2 hbw

theorem processEvent_links_mono (sim : NetworkSimulation) (e : Event)
    (hbw : ∀ x ∈ sim.links, 0 < x.bandwidth) :
    List.Forall₂ LinkMono sim.links (processEvent sim e).links := by
  cases he : e.event_type with
  | PacketArrival n =>
    by_cases hd : n = e.packet.destination_id
    · rw [processEvent_arrival_dest sim e n he hd]
      cases hp : e.packet.packet_type <;> simp only [replySpec] <;>
        first
        | exact send_packet_ex_links_mono sim n e.packet.source_id _ _ hbw
        | exact forall2_linkMono_refl _
    · rw [processEvent_arrival_fwd sim e n he hd]
      exact forall2_linkMono_refl _
  | PacketTransmissionComplete n =>
    cases h1 : find_next_hop sim.links n e.packet.destination_id with
    | none =>
      rw [processEvent_tc_none sim e n he h1]
      exact forall2_linkMono_refl _
    | some nh =>
      cases h2 : reserveOnFirst sim.links n nh sim.current_time e.packet.size_bytes with
      | none =>
        rw [processEvent_tc_res_none sim e n nh he h1 h2]
        exact forall2_linkMono_refl _
      | some p =>
        obtain ⟨a, ls'⟩ := p
        rw [processEvent_tc_some sim e n nh a ls' he h1 h2]
        exact reserveOnFirst_mono n nh sim.current_time e.packet.size_bytes
          sim.links a ls' h2 hbw

theorem runFuel_succ_none (n : Nat) (sim : NetworkSimulation) (d : ℚ)
    (h : popMin sim.event_queue = none) : runFuel (n + 1) sim d = sim := by
  simp only [runFuel, h]

theorem runFuel_succ_break (n : Nat) (sim : NetworkSimulation) (d : ℚ)
    (e : Event) (rest : List Event) (h : popMin sim.event_queue = some (e, rest))
    (ht : d < e.time) :
    runFuel (n + 1) sim d = { sim with event_queue := rest } := by
  simp only [runFuel, h, if_pos ht]

theorem runFuel_succ_step (n : Nat) (sim : NetworkSimulation) (d : ℚ)
    (e : Event) (rest : List Event) (h : popMin sim.event_queue = some (e, rest))
    (ht : ¬ d < e.time) :
    runFuel (n + 1) sim d =
      runFuel n (processEvent { sim with current_time := e.time, event_queue := rest } e) d := by
  simp only [runFuel, h, if_neg ht]

theorem runFuel_links_mono (n : Nat) :
    ∀ (sim : NetworkSimulation) (d : ℚ), (∀ x ∈ sim.links, 0 < x.bandwidth) →
      List.Forall₂ LinkMono sim.links (runFuel n sim d).links := by
  induction n with
  | zero => intro sim d _; exact forall2_linkMono_refl _
  | succ n ih =>
    intro sim d hbw
    cases hp : popMin sim.event_queue with
    | none =>
      rw [runFuel_succ_none n sim d hp]
      exact forall2_linkMono_refl _
    | some p =>
      obtain ⟨e, rest⟩ := p
      by_cases ht : d < e.time
      · rw [runFuel_succ_break n sim d e rest hp ht]
        exact forall2_linkMono_refl _
      · rw [runFuel_succ_step n sim d e rest hp ht]
        have hstep := processEvent_links_mono
          { sim with current_time := e.time, event_queue := rest } e hbw
        have hbw' := forall2_linkMono_bw hstep hbw
        exact forall2_linkMono_trans hstep (ih _ d hbw')

/-! ## Edge preservation and the termination potential -/

theorem send_packet_ex_edges (sim : NetworkSimulation) (fr dst size : Nat)
    (t : PacketType) :
    edges (send_packet_ex sim fr dst size t).links = edges sim.links ∧
      (send_packet_ex sim fr dst size t).links.length = sim.links.length := by
  cases h1 : find_next_hop sim.links fr dst with
  | none =>
    rw [send_packet_ex_none sim fr dst size t h1]
    exact ⟨rfl, rfl⟩
  | some nh =>
    cases h2 : reserveOnFirst sim.links fr nh sim.current_time size with
    | none =>
      rw [send_packet_ex_res_none sim fr dst size t nh h1 h2]
      exact ⟨rfl, rfl⟩
    | some p =>
      obtain ⟨a, ls'⟩ := p
      rw [send_packet_ex_some sim fr dst size t nh a ls' h1 h2]
      exact reserveOnFirst_edges fr nh sim.current_time size sim.links a ls' h2

theorem processEvent_edges (sim : NetworkSimulation) (e : Event) :
    edges (processEvent sim e).links = edges sim.links ∧
      (processEvent sim e).links.length = sim.links.length := by
  cases he : e.event_type with
  | PacketArrival n =>
    by_cases hd : n = e.packet.destination_id
    · rw [processEvent_arrival_dest sim e n he hd]
      cases hp : e.packet.packet_type <;> simp only [replySpec] <;>
        first
        | exact send_packet_ex_edges sim n e.packet.source_id _ _
        | exact ⟨rfl, rfl⟩
        | exact ⟨rfl, trivial⟩
        | simp
    · rw [processEvent_arrival_fwd sim e n he hd]
      exact ⟨rfl, rfl⟩
  | PacketTransmissionComplete n =>
    cases h1 : find_next_hop sim.links n e.packet.destination_id with
    | none =>
      rw [processEvent_tc_none sim e n he h1]
      exact ⟨rfl, rfl⟩
    | some nh =>
      cases h2 : reserveOnFirst sim.links n nh sim.current_time e.packet.size_bytes with
      | none =>
        rw [processEvent_tc_res_none sim e n nh he h1 h2]
        exact ⟨rfl, rfl⟩
      | some p =>
        obtain ⟨a, ls'⟩ := p
        rw [processEvent_tc_some sim e n nh a ls' he h1 h2]
        exact reserveOnFirst_edges n nh sim.current_time e.packet.size_bytes
          sim.links a ls' h2

theorem potE_ge_one (es : List (Nat × Nat)) (L : Nat) (e : Event) :
    1 ≤ potE es L e := by
  cases he : e.event_type with
  | PacketArrival n =>
    simp only [potE, he]
    by_cases hd : n = e.packet.destination_id
    · rw [if_pos hd]; omega
    · rw [if_neg hd]; omega
  | PacketTransmissionComplete n =>
    simp only [potE, he]
    omega

theorem distN_le_len (es : List (Nat × Nat)) (a b : Nat) :
    distN es a b ≤ es.length :=
  le_trans (distN_le_bound es a b) (linkCardBound_le es)

/-- Total potential of an event list against fixed edges and link count. -/
def potQ (es : List (Nat × Nat)) (L : Nat) (q : List Event) : Nat :=
  (q.map (potE es L)).sum

theorem potQ_append (es : List (Nat × Nat)) (L : Nat) (q1 q2 : List Event) :
    potQ es L (q1 ++ q2) = potQ es L q1 + potQ es L q2 := by
  simp [potQ]

theorem potQ_zero_nil (es : List (Nat × Nat)) (L : Nat) :
    ∀ q : List Event, potQ es L q = 0 → q = [] := by
  intro q hq
  cases q with
  | nil => rfl
  | cons e q' =>
    exfalso
    have h1 := potE_ge_one es L e
    simp only [potQ, List.map_cons, List.sum_cons] at hq
    omega

theorem send_packet_ex_pot (sim : NetworkSimulation) (fr dst size : Nat)
    (t : PacketType) :
    potQ (edges sim.links) sim.links.length (send_packet_ex sim fr dst size t).event_queue ≤
      potQ (edges sim.links) sim.links.length sim.event_queue +
        (2 + 2 * sim.links.length + replyPot sim.links.length t) := by
  cases h1 : find_next_hop sim.links fr dst with
  | none =>
    rw [send_packet_ex_none sim fr dst size t h1]
    omega
  | some nh =>
    cases h2 : reserveOnFirst sim.links fr nh sim.current_time size with
    | none =>
      rw [send_packet_ex_res_none sim fr dst size t nh h1 h2]
      omega
    | some p =>
      obtain ⟨a, ls'⟩ := p
      rw [send_packet_ex_some sim fr dst size t nh a ls' h1 h2]
      dsimp only
      rw [potQ_append]
      have hd : distN (edges sim.links) nh dst ≤ sim.links.length := by
        have := distN_le_len (edges sim.links) nh dst
        have hlen : (edges sim.links).length = sim.links.length := List.length_map _ _
        omega
      have hev : potE (edges sim.links) sim.links.length
          { time := a, packet := sentPacket sim fr dst size t,
            event_type := EventType.PacketArrival nh } ≤
          2 + 2 * sim.links.length + replyPot sim.links.length t := by
        simp only [potE, sentPacket]
        by_cases hnd : nh = dst
        · rw [if_pos hnd]; omega
        · rw [if_neg hnd]; omega
      simp only [potQ, List.map_cons, List.map_nil, List.sum_cons, List.sum_nil] at hev ⊢
      omega

theorem processEvent_pot (sim : NetworkSimulation) (e : Event) :
    potQ (edges sim.links) sim.links.length (processEvent sim e).event_queue + 1 ≤
      potQ (edges sim.links) sim.links.length sim.event_queue +
        potE (edges sim.links) sim.links.length e := by
  cases he : e.event_type with
  | PacketArrival n =>
    by_cases hd : n = e.packet.destination_id
    · rw [processEvent_arrival_dest sim e n he hd]
      have hpe : potE (edges sim.links) sim.links.length e =
          1 + replyPot sim.links.length e.packet.packet_type := by
        simp only [potE, he]
        rw [if_pos hd]
      rw [hpe]
      cases hp : e.packet.packet_type with
      | TcpSyn =>
        have hsp := send_packet_ex_pot sim n e.packet.source_id 64 PacketType.TcpSynAck
        simp only [replySpec, replyPot] at hsp ⊢
        omega
      | TcpSynAck =>
        have hsp := send_packet_ex_pot sim n e.packet.source_id 64 PacketType.TcpAck
        simp only [replySpec, replyPot] at hsp ⊢
        omega
      | CdnRequest =>
        have hsp := send_packet_ex_pot sim n e.packet.source_id 1024 PacketType.CdnResponse
        simp only [replySpec, replyPot] at hsp ⊢
        omega
      | Standard => simp only [replySpec, replyPot]; omega
      | TcpAck => simp only [replySpec, replyPot]; omega
      | CdnResponse => simp only [replySpec, replyPot]; omega
    · rw [processEvent_arrival_fwd sim e n he hd]
      have hpe : potE (edges sim.links) sim.links.length e =
          2 + 2 * distN (edges sim.links) n e.packet.destination_id +
            replyPot sim.links.length e.packet.packet_type := by
        simp only [potE, he]
        rw [if_neg hd]
      rw [hpe, potQ_append]
      have hev : potE (edges sim.links) sim.links.length
          { time := sim.current_time +
              (match lookupServer sim.servers n with
               | some s => s.processing_delay
               | none => 0),
            packet := e.packet,
            event_type := EventType.PacketTransmissionComplete n } =
          1 + 2 * distN (edges sim.links) n e.packet.destination_id +
            replyPot sim.links.length e.packet.packet_type := by
        simp only [potE]
      simp only [potQ, List.map_cons, List.map_nil, List.sum_cons, List.sum_nil] at hev ⊢
      omega
  | PacketTransmissionComplete n =>
    have hpe : potE (edges sim.links) sim.links.length e =
        1 + 2 * distN (edges sim.links) n e.packet.destination_id +
          replyPot sim.links.length e.packet.packet_type := by
      simp only [potE, he]
    cases h1 : find_next_hop sim.links n e.packet.destination_id with
    | none =>
      rw [processEvent_tc_none sim e n he h1]
      have := potE_ge_one (edges sim.links) sim.links.length e
      omega
    | some nh =>
      cases h2 : reserveOnFirst sim.links n nh sim.current_time e.packet.size_bytes with
      | none =>
        rw [processEvent_tc_res_none sim e n nh he h1 h2]
        have := potE_ge_one (edges sim.links) sim.links.length e
        omega
      | some p =>
        obtain ⟨a, ls'⟩ := p
        rw [processEvent_tc_some sim e n nh a ls' he h1 h2]
        obtain ⟨hdist, _, _⟩ := find_next_hop_distN sim.links n e.packet.destination_id nh h1
        rw [hpe, potQ_append]
        have hev : potE (edges sim.links) sim.links.length
            { time := a, packet := e.packet,
              event_type := EventType.PacketArrival nh } ≤
            2 + 2 * distN (edges sim.links) nh e.packet.destination_id +
              replyPot sim.links.length e.packet.packet_type := by
          simp only [potE]
          by_cases hnd : nh = e.packet.destination_id
          · rw [if_pos hnd]; omega
          · rw [if_neg hnd]
        simp only [potQ, List.map_cons, List.map_nil, List.sum_cons, List.sum_nil] at hev ⊢
        omega

theorem runFuel_done (d : ℚ) :
    ∀ (n : Nat) (sim : NetworkSimulation), totalPot sim ≤ n →
      SimDone (runFuel n sim d) d = true := by
  intro n
  induction n with
  | zero =>
    intro sim h0
    have hq : sim.event_queue = [] :=
      potQ_zero_nil (edges sim.links) sim.links.length sim.event_queue
        (by have : totalPot sim = 0 := Nat.le_zero.mp h0; simpa [totalPot, potQ] using this)
    show SimDone sim d = true
    simp only [SimDone, hq, popMin]
  | succ n ih =>
    intro sim hN
    cases hp : popMin sim.event_queue with
    | none =>
      rw [runFuel_succ_none n sim d hp]
      simp only [SimDone, hp]
    | some p =>
      obtain ⟨e, rest⟩ := p
      by_cases ht : d < e.time
      · rw [runFuel_succ_break n sim d e rest hp ht]
        have hqr : ({ sim with event_queue := rest } :
            NetworkSimulation).event_queue = rest := rfl
        cases hr : popMin rest with
        | none => simp only [SimDone, hqr, hr]
        | some q =>
          obtain ⟨m, rest2⟩ := q
          have hm_rest : m ∈ rest := by
            have hperm := popMin_perm rest m rest2 hr
            exact hperm.mem_iff.mpr (by simp)
          have hm_sim : m ∈ sim.event_queue := by
            have hperm := popMin_perm sim.event_queue e rest hp
            exact hperm.mem_iff.mpr (List.mem_cons_of_mem _ hm_rest)
          have hle := popMin_min sim.event_queue e rest hp m hm_sim
          have hdm : d < m.time := lt_of_lt_of_le ht hle
          simp only [SimDone, hqr, hr]
          simpa using hdm
      · rw [runFuel_succ_step n sim d e rest hp ht]
        apply ih
        have hperm := popMin_perm sim.event_queue e rest hp
        have hsum : totalPot sim =
            potE (edges sim.links) sim.links.length e +
              potQ (edges sim.links) sim.links.length rest := by
          have hmap := hperm.map (potE (edges sim.links) sim.links.length)
          have := hmap.sum_eq
          simpa [totalPot, potQ] using this
        have hpp := processEvent_pot
          { sim with current_time := e.time, event_queue := rest } e
        have hq0 : ({ sim with current_time := e.time, event_queue := rest } :
            NetworkSimulation).event_queue = rest := rfl
        have hl0 : ({ sim with current_time := e.time, event_queue := rest } :
            NetworkSimulation).links = sim.links := rfl
        rw [hq0, hl0] at hpp
        have hedge := processEvent_edges
          { sim with current_time := e.time, event_queue := rest } e
        rw [hl0] at hedge
        have htot : totalPot
            (processEvent { sim with current_time := e.time, event_queue := rest } e) =
            potQ (edges sim.links) sim.links.length
              (processEvent { sim with current_time := e.time, event_queue := rest } e).event_queue := by
          rw [totalPot, potQ, hedge.1, hedge.2]
        rw [htot]
        omega

/-! ## Remaining helper lemmas -/

theorem reserve_transmission_fst (l : NetworkLink) (ct : ℚ) (size : Nat) :
    (reserve_transmission l ct size).1 =
      max ct l.queue_end_time + l.latency + ((size : ℚ) * 8) / l.bandwidth := by
  simp [reserve_transmission]

theorem reserve_transmission_snd (l : NetworkLink) (ct : ℚ) (size : Nat) :
    (reserve_transmission l ct size).2 = ((size : ℚ) * 8) / l.bandwidth := by
  simp [reserve_transmission]

theorem send_packet_ex_queue_len (sim : NetworkSimulation) (fr dst size : Nat)
    (t : PacketType) :
    (send_packet_ex sim fr dst size t).event_queue.length ≤
      sim.event_queue.length + 1 := by
  cases h1 : find_next_hop sim.links fr dst with
  | none =>
    rw [send_packet_ex_none sim fr dst size t h1]
    exact Nat.le_succ _
  | some nh =>
    cases h2 : reserveOnFirst sim.links fr nh sim.current_time size with
    | none =>
      rw [send_packet_ex_res_none sim fr dst size t nh h1 h2]
      exact Nat.le_succ _
    | some p =>
      obtain ⟨a, ls'⟩ := p
      rw [send_packet_ex_some sim fr dst size t nh a ls' h1 h2]
      dsimp only
      simp

theorem find_insertById_self {α : Type} (getId : α → Nat) :
    ∀ (l : List α) (x : α),
      (insertById getId l x).find? (fun y => getId y == getId x) = some x := by
  intro l
  induction l with
  | nil =>
    intro x
    simp only [insertById]
    rw [List.find?_cons_of_pos _ (by simp)]
  | cons y ys ih =>
    intro x
    by_cases h : getId y = getId x
    · simp only [insertById, if_pos h]
      rw [List.find?_cons_of_pos _ (by simp)]
    · simp only [insertById, if_neg h]
      rw [List.find?_cons_of_neg _ (by simp [h])]
      exact ih x

theorem find_insertById_other {α : Type} (getId : α → Nat) :
    ∀ (l : List α) (x : α) (n : Nat), n ≠ getId x →
      (insertById getId l x).find? (fun y => getId y == n) =
        l.find? (fun y => getId y == n) := by
  intro l
  induction l with
  | nil =>
    intro x n h
    simp only [insertById]
    rw [List.find?_cons_of_neg _ (by simp; omega)]
  | cons y ys ih =>
    intro x n h
    by_cases hxy : getId y = getId x
    · simp only [insertById, if_pos hxy]
      rw [List.find?_cons_of_neg _ (by simp; omega)]
      rw [List.find?_cons_of_neg _ (by simp; omega)]
    · simp only [insertById, if_neg hxy]
      by_cases hp : getId y = n
      · rw [List.find?_cons_of_pos _ (by simp [hp]),
          List.find?_cons_of_pos _ (by simp [hp])]
      · rw [List.find?_cons_of_neg _ (by simp [hp]),
          List.find?_cons_of_neg _ (by simp [hp])]
        exact ih x n h

/-! ## Concrete fixtures used by witnesses and demonstrations -/

/-- The empty simulation (`NetworkSimulation::new`). -/
def emptySim : NetworkSimulation :=
  { servers := [], clients := [], links := [], event_queue := [],
    current_time := 0, completed_packets := [] }

/-- One directed link 0 to 1 with latency 1 s and bandwidth 8 bit/s. -/
def linkC1 : NetworkLink :=
  { from_ := 0, to_ := 1, distance := 1, latency := 1, bandwidth := 8,
    queue_end_time := 0 }

/-- A simulation with the single link 0 to 1. -/
def wsimC1 : NetworkSimulation :=
  { servers := [], clients := [], links := [linkC1], event_queue := [],
    current_time := 0, completed_packets := [] }

/-- A 4-byte packet from node 0 bound for node 1. -/
def packetC1 : DataPacket :=
  { id := 7, source_id := 0, destination_id := 1, size_bytes := 4,
    created_at := 0, packet_type := PacketType.Standard }

/-- A transmission-complete event at node 0 carrying that packet. -/
def eventC1 : Event :=
  { time := 5, packet := packetC1,
    event_type := EventType.PacketTransmissionComplete 0 }

/-- A 64-byte handshake SYN from node 0 bound for node 1. -/
def packetC5 : DataPacket :=
  { id := 9, source_id := 0, destination_id := 1, size_bytes := 64,
    created_at := 1, packet_type := PacketType.TcpSyn }

/-- An arrival event at node 1 (its destination) for that SYN. -/
def eventC5 : Event :=
  { time := 3, packet := packetC5, event_type := EventType.PacketArrival 1 }

/-- An 8-byte packet from node 0 bound for node 1. -/
def packetC6 : DataPacket :=
  { id := 0, source_id := 0, destination_id := 1, size_bytes := 8,
    created_at := 0, packet_type := PacketType.Standard }

/-- A transmission-complete event whose packet has no route. -/
def eventC6 : Event :=
  { time := 1, packet := packetC6,
    event_type := EventType.PacketTransmissionComplete 0 }

/-- Base topology for the horizon demonstration: one link 0 to 1 with
latency 1 s and bandwidth 8 bit/s. -/
def c3base : NetworkSimulation :=
  { servers := [], clients := [], links := [linkC1], event_queue := [],
    current_time := 0, completed_packets := [] }

/-- One injected 1-byte packet whose arrival event lands at time 2. -/
def c3sim : NetworkSimulation :=
  send_packet_ex c3base 0 1 1 PacketType.Standard

/-- The injected 1-byte packet of the horizon demonstration. -/
def c3packet : DataPacket :=
  { id := 0, source_id := 0, destination_id := 1, size_bytes := 1,
    created_at := 0, packet_type := PacketType.Standard }

/-- Its arrival event at time 2. -/
def c3ev : Event :=
  { time := 2, packet := c3packet, event_type := EventType.PacketArrival 1 }

/-- The state of the horizon demonstration right after injection. -/
def c3X : NetworkSimulation :=
  { servers := [], clients := [],
    links := [{ from_ := 0, to_ := 1, distance := 1, latency := 1,
                bandwidth := 8, queue_end_time := 1 }],
    event_queue := [c3ev], current_time := 0, completed_packets := [] }

/-- Bidirectional topology 0 and 1 (two directed links), latency 1 s,
bandwidth 512 bit/s. -/
def c7base : NetworkSimulation :=
  { servers := [], clients := [],
    links := [{ from_ := 0, to_ := 1, distance := 1, latency := 1,
                bandwidth := 512, queue_end_time := 0 },
              { from_ := 1, to_ := 0, distance := 1, latency := 1,
                bandwidth := 512, queue_end_time := 0 }],
    event_queue := [], current_time := 0, completed_packets := [] }

/-- One injected 64-byte handshake SYN from 0 to 1. -/
def c7sim : NetworkSimulation :=
  send_packet_ex c7base 0 1 64 PacketType.TcpSyn

/-- The 0 to 1 link of the handshake demonstration, at a given
`queue_end_time`. -/
def c7link01 (q : ℚ) : NetworkLink :=
  { from_ := 0, to_ := 1, distance := 1, latency := 1, bandwidth := 512,
    queue_end_time := q }

/-- The 1 to 0 link of the handshake demonstration, at a given
`queue_end_time`. -/
def c7link10 (q : ℚ) : NetworkLink :=
  { from_ := 1, to_ := 0, distance := 1, latency := 1, bandwidth := 512,
    queue_end_time := q }

/-- The injected SYN (id 0). -/
def c7P0 : DataPacket :=
  { id := 0, source_id := 0, destination_id := 1, size_bytes := 64,
    created_at := 0, packet_type := PacketType.TcpSyn }

/-- The SYN-ACK reply — numbered before the SYN is recorded, so it also
gets id 0. -/
def c7P1 : DataPacket :=
  { id := 0, source_id := 1, destination_id := 0, size_bytes := 64,
    created_at := 2, packet_type := PacketType.TcpSynAck }

/-- The final ACK (id 1). -/
def c7P2 : DataPacket :=
  { id := 1, source_id := 0, destination_id := 1, size_bytes := 64,
    created_at := 4, packet_type := PacketType.TcpAck }

/-- Arrival of the SYN at node 1, time 2. -/
def c7ev0 : Event :=
  { time := 2, packet := c7P0, event_type := EventType.PacketArrival 1 }

/-- Arrival of the SYN-ACK at node 0, time 4. -/
def c7ev1 : Event :=
  { time := 4, packet := c7P1, event_type := EventType.PacketArrival 0 }

/-- Arrival of the ACK at node 1, time 6. -/
def c7ev2 : Event :=
  { time := 6, packet := c7P2, event_type := EventType.PacketArrival 1 }

/-- Handshake state right after injection. -/
def c7X0 : NetworkSimulation :=
  { servers := [], clients := [], links := [c7link01 1, c7link10 0],
    event_queue := [c7ev0], current_time := 0, completed_packets := [] }

/-- Handshake state after the SYN is finalized and the SYN-ACK queued. -/
def c7X1 : NetworkSimulation :=
  { servers := [], clients := [], links := [c7link01 1, c7link10 3],
    event_queue := [c7ev1], current_time := 2,
    completed_packets := [(c7P0, 2)] }

/-- Handshake state after the SYN-ACK is finalized and the ACK queued. -/
def c7X2 : NetworkSimulation :=
  { servers := [], clients := [], links := [c7link01 5, c7link10 3],
    event_queue := [c7ev2], current_time := 4,
    completed_packets := [(c7P0, 2), (c7P1, 2)] }

/-- Final handshake state: three completed packets, empty queue. -/
def c7X3 : NetworkSimulation :=
  { servers := [], clients := [], links := [c7link01 5, c7link10 3],
    event_queue := [], current_time := 6,
    completed_packets := [(c7P0, 2), (c7P1, 2), (c7P2, 2)] }

/-- A server with id 0. -/
def srvA : Server :=
  { id := 0, location := { latitude := 0, longitude := 0, name := "A" },
    processing_delay := 1, bandwidth := 1 }

/-- A different server reusing id 0. -/
def srvB : Server :=
  { id := 0, location := { latitude := 1, longitude := 1, name := "B" },
    processing_delay := 2, bandwidth := 2 }

/-! ## Evaluated forms of the demonstration states

The float arithmetic of the embedding lives in ℚ, whose operations are
irreducible; the following lemmas evaluate the reservation arithmetic
once so that the scheduler demonstrations run over states whose
timestamps are literals. -/

theorem c3sim_eq : c3sim = c3X := by
  have hres : reserveOnFirst c3base.links 0 1 c3base.current_time 1 =
      some (2, [{ from_ := 0, to_ := 1, distance := 1, latency := 1,
                  bandwidth := 8, queue_end_time := 1 }]) := by
    have h := reserveOnFirst_spec 0 1 c3base.current_time 1 [] linkC1 []
      (by simp) rfl rfl
    rw [show c3base.links = [] ++ linkC1 :: [] from rfl, h]
    norm_num [linkC1, NetworkLink.transmission_time, c3base, max_def]
  rw [c3sim, send_packet_ex_some c3base 0 1 1 PacketType.Standard 1 2 _
    (by decide) hres]
  rfl

theorem c7sim_eq : c7sim = c7X0 := by
  have hres : reserveOnFirst c7base.links 0 1 c7base.current_time 64 =
      some (2, [c7link01 1, c7link10 0]) := by
    have h := reserveOnFirst_spec 0 1 c7base.current_time 64 []
      (c7link01 0) [c7link10 0] (by simp) rfl rfl
    rw [show c7base.links = [] ++ c7link01 0 :: [c7link10 0] from rfl, h]
    norm_num [c7link01, c7link10, NetworkLink.transmission_time, c7base, max_def]
  rw [c7sim, send_packet_ex_some c7base 0 1 64 PacketType.TcpSyn 1 2 _
    (by decide) hres]
  rfl

theorem c7step1 :
    processEvent { c7X0 with current_time := c7ev0.time, event_queue := [] }
      c7ev0 = c7X1 := by
  have hfind : find_next_hop [c7link01 1, c7link10 0] 1 0 = some 0 := by decide
  have hres : reserveOnFirst [c7link01 1, c7link10 0] 1 0 2 64 =
      some (4, [c7link01 1, c7link10 3]) := by
    have h := reserveOnFirst_spec 1 0 2 64 [c7link01 1] (c7link10 0) []
      (by decide) rfl rfl
    rw [show [c7link01 1] ++ c7link10 0 :: [] = [c7link01 1, c7link10 0]
      from rfl] at h
    rw [h]
    norm_num [c7link01, c7link10, NetworkLink.transmission_time, max_def]
  simp only [processEvent, send_packet_ex, c7X0, c7ev0, c7P0, hfind, hres]
  norm_num [c7X1, c7ev1, c7P0, c7P1]

theorem c7step2 :
    processEvent { c7X1 with current_time := c7ev1.time, event_queue := [] }
      c7ev1 = c7X2 := by
  have hfind : find_next_hop [c7link01 1, c7link10 3] 0 1 = some 1 := by decide
  have hres : reserveOnFirst [c7link01 1, c7link10 3] 0 1 4 64 =
      some (6, [c7link01 5, c7link10 3]) := by
    have h := reserveOnFirst_spec 0 1 4 64 [] (c7link01 1) [c7link10 3]
      (by simp) rfl rfl
    rw [show ([] : List NetworkLink) ++ c7link01 1 :: [c7link10 3] =
      [c7link01 1, c7link10 3] from rfl] at h
    rw [h]
    norm_num [c7link01, c7link10, NetworkLink.transmission_time, max_def]
  simp only [processEvent, send_packet_ex, c7X1, c7ev1, c7P1, hfind, hres]
  norm_num [c7X2, c7ev2, c7P0, c7P1, c7P2]

theorem c7step3 :
    processEvent { c7X2 with current_time := c7ev2.time, event_queue := [] }
      c7ev2 = c7X3 := by
  simp only [processEvent, c7X2, c7ev2, c7P2]
  norm_num [c7X3, c7P0, c7P1, c7P2]

theorem c7run : run_simulation c7X0 20 = c7X3 := by
  rw [run_simulation, show totalPot c7X0 = 15 from by decide,
    runFuel_succ_step 14 c7X0 20 c7ev0 [] rfl (by decide), c7step1,
    runFuel_succ_step 13 c7X1 20 c7ev1 [] rfl (by decide), c7step2,
    runFuel_succ_step 12 c7X2 20 c7ev2 [] rfl (by decide), c7step3]
  exact runFuel_succ_none 11 c7X3 20 rfl

/-! ## The claims -/

/-- C1: at injection (`send_packet_ex`) and at a transmission-complete
event (the scheduler branch of `run_simulation`), a send of `size` bytes
over the first matching link with positive bandwidth follows the
`reserve_transmission` contract: the duration is `size*8 / bandwidth`, the
slot starts at `max(current_time, queue_end_time)`, the scheduled arrival
event's timestamp is slot start + latency + duration, and the link's
`queue_end_time` becomes slot start + duration (latency excluded); all
other links and state fields are untouched apart from the appended
event. -/
theorem claim_C1 :
    (∀ (sim : NetworkSimulation) (fr dst size : Nat) (t : PacketType) (nh : Nat)
        (pre : List NetworkLink) (l : NetworkLink) (post : List NetworkLink),
      find_next_hop sim.links fr dst = some nh →
      sim.links = pre ++ l :: post →
      (∀ x ∈ pre, ¬(x.from_ = fr ∧ x.to_ = nh)) →
      l.from_ = fr → l.to_ = nh → 0 < l.bandwidth →
      (reserve_transmission l sim.current_time size).2 = ((size : ℚ) * 8) / l.bandwidth ∧
      (reserve_transmission l sim.current_time size).1 =
        max sim.current_time l.queue_end_time + l.latency +
          (reserve_transmission l sim.current_time size).2 ∧
      send_packet_ex sim fr dst size t =
        { sim with
          links := pre ++ { l with queue_end_time := max sim.current_time l.queue_end_time + (reserve_transmission l sim.current_time size).2 } :: post
          event_queue := sim.event_queue ++
            [{ time := (reserve_transmission l sim.current_time size).1,
               packet := sentPacket sim fr dst size t,
               event_type := EventType.PacketArrival nh }] }) ∧
    (∀ (sim : NetworkSimulation) (e : Event) (n nh : Nat)
        (pre : List NetworkLink) (l : NetworkLink) (post : List NetworkLink),
      e.event_type = EventType.PacketTransmissionComplete n →
      find_next_hop sim.links n e.packet.destination_id = some nh →
      sim.links = pre ++ l :: post →
      (∀ x ∈ pre, ¬(x.from_ = n ∧ x.to_ = nh)) →
      l.from_ = n → l.to_ = nh → 0 < l.bandwidth →
      processEvent sim e =
        { sim with
          links := pre ++ { l with queue_end_time := max sim.current_time l.queue_end_time + (reserve_transmission l sim.current_time e.packet.size_bytes).2 } :: post
          event_queue := sim.event_queue ++
            [{ time := (reserve_transmission l sim.current_time e.packet.size_bytes).1,
               packet := e.packet,
               event_type := EventType.PacketArrival nh }] }) := by
  constructor
  · intro sim fr dst size t nh pre l post h1 hls hpre hf ht hbw
    have hres := reserveOnFirst_spec fr nh sim.current_time size pre l post hpre hf ht
    rw [← hls] at hres
    refine ⟨reserve_transmission_snd l sim.current_time size, ?_, ?_⟩
    · rw [reserve_transmission_fst, reserve_transmission_snd]
    · rw [send_packet_ex_some sim fr dst size t nh _ _ h1 hres]
      rw [reserve_transmission_fst, reserve_transmission_snd]
      simp only [NetworkLink.transmission_time]
  · intro sim e n nh pre l post he h1 hls hpre hf ht hbw
    have hres := reserveOnFirst_spec n nh sim.current_time e.packet.size_bytes
      pre l post hpre hf ht
    rw [← hls] at hres
    rw [processEvent_tc_some sim e n nh _ _ he h1 hres]
    rw [reserve_transmission_fst, reserve_transmission_snd]
    simp only [NetworkLink.transmission_time]

theorem claim_C1_witness :
    (find_next_hop wsimC1.links 0 1 = some 1 ∧ wsimC1.links = [] ++ linkC1 :: [] ∧
      linkC1.from_ = 0 ∧ linkC1.to_ = 1 ∧ (0 : ℚ) < linkC1.bandwidth ∧
      eventC1.event_type = EventType.PacketTransmissionComplete 0 ∧
      find_next_hop wsimC1.links 0 eventC1.packet.destination_id = some 1) ∧
    ((reserve_transmission linkC1 wsimC1.current_time 5).2 =
        ((5 : ℚ) * 8) / linkC1.bandwidth ∧
      (reserve_transmission linkC1 wsimC1.current_time 5).1 =
        max wsimC1.current_time linkC1.queue_end_time + linkC1.latency +
          (reserve_transmission linkC1 wsimC1.current_time 5).2 ∧
      send_packet_ex wsimC1 0 1 5 PacketType.Standard =
        { wsimC1 with
          links := [] ++ { linkC1 with queue_end_time := max wsimC1.current_time linkC1.queue_end_time + (reserve_transmission linkC1 wsimC1.current_time 5).2 } :: []
          event_queue := wsimC1.event_queue ++
            [{ time := (reserve_transmission linkC1 wsimC1.current_time 5).1,
               packet := sentPacket wsimC1 0 1 5 PacketType.Standard,
               event_type := EventType.PacketArrival 1 }] }) ∧
    (processEvent wsimC1 eventC1 =
        { wsimC1 with
          links := [] ++ { linkC1 with queue_end_time := max wsimC1.current_time linkC1.queue_end_time + (reserve_transmission linkC1 wsimC1.current_time eventC1.packet.size_bytes).2 } :: []
          event_queue := wsimC1.event_queue ++
            [{ time := (reserve_transmission linkC1 wsimC1.current_time eventC1.packet.size_bytes).1,
               packet := eventC1.packet,
               event_type := EventType.PacketArrival 1 }] }) :=
  ⟨⟨by decide, rfl, rfl, rfl, by decide, by decide, by decide⟩,
   claim_C1.1 wsimC1 0 1 5 PacketType.Standard 1 [] linkC1 []
     (by decide) rfl (by simp) rfl rfl (by decide),
   claim_C1.2 wsimC1 eventC1 0 1 [] linkC1 []
     (by decide) (by decide) rfl (by simp) rfl rfl (by decide)⟩

/-- C2: for distinct nodes, `find_next_hop` answers `none` exactly when no
directed path exists, and any answer `some n` is an out-neighbor of the
source lying on a minimum-hop-count path to the destination (the concrete
choice among equally short paths is the BFS's deterministic
link-enumeration order). -/
theorem claim_C2 : ∀ (links : List NetworkLink) (fr dst : Nat), fr ≠ dst →
    ((find_next_hop links fr dst = none ↔ ¬ Reachable (edges links) fr dst) ∧
     (∀ n, find_next_hop links fr dst = some n →
        (fr, n) ∈ edges links ∧
        ∃ k, PathLen (edges links) n dst k ∧ PathLen (edges links) fr dst (k + 1) ∧
          ∀ m, PathLen (edges links) fr dst m → k + 1 ≤ m)) := by
  intro links fr dst hne
  exact ⟨find_next_hop_none_iff links fr dst hne,
    fun n h => (find_next_hop_ok links fr dst).2 n h⟩

theorem claim_C2_witness :
    (0 ≠ 1) ∧
    ((find_next_hop [linkC1] 0 1 = none ↔ ¬ Reachable (edges [linkC1]) 0 1) ∧
     (∀ n, find_next_hop [linkC1] 0 1 = some n →
        (0, n) ∈ edges [linkC1] ∧
        ∃ k, PathLen (edges [linkC1]) n 1 k ∧ PathLen (edges [linkC1]) 0 1 (k + 1) ∧
          ∀ m, PathLen (edges [linkC1]) 0 1 m → k + 1 ≤ m)) :=
  ⟨by decide, claim_C2 [linkC1] 0 1 (by decide)⟩

/-- C3 (code bug demonstration): the scheduler pops the earliest
over-horizon event before breaking, so that event is dropped from the
pending collection: running `c3sim` (one pending arrival at time 2) to
horizon 1 leaves an empty queue, a later run to horizon 10 completes
nothing, while a single run to horizon 10 completes the packet. -/
theorem claim_C3 :
    (run_simulation c3sim 1).event_queue = [] ∧
    (run_simulation (run_simulation c3sim 1) 10).completed_packets = [] ∧
    (run_simulation c3sim 10).completed_packets.length = 1 := by
  rw [c3sim_eq]
  refine ⟨?_, ?_, ?_⟩ <;> decide

/-- C4: with positive bandwidths, every link's `queue_end_time` is
monotonically non-decreasing, both across a single injection
(`send_packet_ex`) and across any number of scheduler iterations
(`runFuel`, of which `run_simulation` is an instance); link count is
preserved throughout. -/
theorem claim_C4 :
    ∀ (sim : NetworkSimulation), (∀ x ∈ sim.links, 0 < x.bandwidth) →
      (∀ (fr dst size : Nat) (t : PacketType),
        (send_packet_ex sim fr dst size t).links.length = sim.links.length ∧
        ∀ (i : Nat) (h1 : i < sim.links.length)
          (h2 : i < (send_packet_ex sim fr dst size t).links.length),
          (sim.links.get ⟨i, h1⟩).queue_end_time ≤
            ((send_packet_ex sim fr dst size t).links.get ⟨i, h2⟩).queue_end_time) ∧
      (∀ (n : Nat) (d : ℚ),
        (runFuel n sim d).links.length = sim.links.length ∧
        ∀ (i : Nat) (h1 : i < sim.links.length)
          (h2 : i < (runFuel n sim d).links.length),
          (sim.links.get ⟨i, h1⟩).queue_end_time ≤
            ((runFuel n sim d).links.get ⟨i, h2⟩).queue_end_time) := by
  intro sim hbw
  constructor
  · intro fr dst size t
    have h := send_packet_ex_links_mono sim fr dst size t hbw
    obtain ⟨hlen, hget⟩ := List.forall₂_iff_get.mp h
    exact ⟨hlen.symm, fun i h1 h2 => (hget i h1 h2).2.2.2.2.2⟩
  · intro n d
    have h := runFuel_links_mono n sim d hbw
    obtain ⟨hlen, hget⟩ := List.forall₂_iff_get.mp h
    exact ⟨hlen.symm, fun i h1 h2 => (hget i h1 h2).2.2.2.2.2⟩

theorem claim_C4_witness :
    (∀ x ∈ wsimC1.links, (0 : ℚ) < x.bandwidth) ∧
    ((∀ (fr dst size : Nat) (t : PacketType),
        (send_packet_ex wsimC1 fr dst size t).links.length = wsimC1.links.length ∧
        ∀ (i : Nat) (h1 : i < wsimC1.links.length)
          (h2 : i < (send_packet_ex wsimC1 fr dst size t).links.length),
          (wsimC1.links.get ⟨i, h1⟩).queue_end_time ≤
            ((send_packet_ex wsimC1 fr dst size t).links.get ⟨i, h2⟩).queue_end_time) ∧
      (∀ (n : Nat) (d : ℚ),
        (runFuel n wsimC1 d).links.length = wsimC1.links.length ∧
        ∀ (i : Nat) (h1 : i < wsimC1.links.length)
          (h2 : i < (runFuel n wsimC1 d).links.length),
          (wsimC1.links.get ⟨i, h1⟩).queue_end_time ≤
            ((runFuel n wsimC1 d).links.get ⟨i, h2⟩).queue_end_time)) :=
  ⟨by decide, claim_C4 wsimC1 (by decide)⟩

/-- C5: finalizing a packet at its destination appends exactly one
completed record and injects exactly the reply the spec's table
(`replySpec`) prescribes, from the destination node back toward the
original source; at most one new event enters the queue. -/
theorem claim_C5 : ∀ (sim : NetworkSimulation) (e : Event) (n : Nat),
    e.event_type = EventType.PacketArrival n →
    n = e.packet.destination_id →
    processEvent sim e =
      (let sim1 := (match replySpec e.packet.packet_type with
        | some (sz, t') => send_packet_ex sim n e.packet.source_id sz t'
        | none => sim);
      { sim1 with completed_packets := sim1.completed_packets ++
          [(e.packet, sim.current_time - e.packet.created_at)] }) ∧
    (processEvent sim e).event_queue.length ≤ sim.event_queue.length + 1 := by
  intro sim e n he hd
  constructor
  · exact processEvent_arrival_dest sim e n he hd
  · rw [processEvent_arrival_dest sim e n he hd]
    cases hp : e.packet.packet_type <;> simp only [replySpec] <;>
      first
      | exact send_packet_ex_queue_len sim n e.packet.source_id _ _
      | exact Nat.le_succ _

theorem claim_C5_witness :
    (eventC5.event_type = EventType.PacketArrival 1 ∧
      1 = eventC5.packet.destination_id) ∧
    (processEvent wsimC1 eventC5 =
      (let sim1 := (match replySpec eventC5.packet.packet_type with
        | some (sz, t') => send_packet_ex wsimC1 1 eventC5.packet.source_id sz t'
        | none => wsimC1);
      { sim1 with completed_packets := sim1.completed_packets ++
          [(eventC5.packet, wsimC1.current_time - eventC5.packet.created_at)] }) ∧
    (processEvent wsimC1 eventC5).event_queue.length ≤ wsimC1.event_queue.length + 1) :=
  ⟨⟨by decide, by decide⟩, claim_C5 wsimC1 eventC5 1 (by decide) (by decide)⟩

/-- C6: with no route, injection is a strict no-op (the whole state is
returned unchanged: no event, no link mutation, no time or completion
change), and a transmission-complete event at a node with no onward path
schedules nothing (the state, whose queue already excludes the popped
event, is returned unchanged, so the packet is dropped). -/
theorem claim_C6 :
    (∀ (sim : NetworkSimulation) (fr dst size : Nat) (t : PacketType),
      find_next_hop sim.links fr dst = none →
      send_packet_ex sim fr dst size t = sim) ∧
    (∀ (sim : NetworkSimulation) (e : Event) (n : Nat),
      e.event_type = EventType.PacketTransmissionComplete n →
      find_next_hop sim.links n e.packet.destination_id = none →
      processEvent sim e = sim) :=
  ⟨fun sim fr dst size t h => send_packet_ex_none sim fr dst size t h,
   fun sim e n he h => processEvent_tc_none sim e n he h⟩

theorem claim_C6_witness :
    (find_next_hop emptySim.links 0 1 = none ∧
      send_packet_ex emptySim 0 1 8 PacketType.Standard = emptySim) ∧
    (eventC6.event_type = EventType.PacketTransmissionComplete 0 ∧
      find_next_hop emptySim.links 0 eventC6.packet.destination_id = none ∧
      processEvent emptySim eventC6 = emptySim) :=
  ⟨⟨by decide, claim_C6.1 emptySim 0 1 8 PacketType.Standard (by decide)⟩,
   ⟨by decide, by decide, claim_C6.2 emptySim eventC6 0 (by decide) (by decide)⟩⟩

/-- C7 (code bug demonstration): packet ids are not unique within a run.
A single SYN injected over a bidirectional pair of links and run to
completion finalizes three packets whose ids are 0, 0, 1: the SYN-ACK
reply is numbered from `completed.len() + queue.len()` before the SYN is
recorded, so it reuses id 0. -/
theorem claim_C7 :
    ((run_simulation c7sim 20).completed_packets.map
        (fun x => (x.1.id, x.1.packet_type))) =
      [(0, PacketType.TcpSyn), (0, PacketType.TcpSynAck), (1, PacketType.TcpAck)] := by
  rw [c7sim_eq, c7run]
  decide

/-- C8 counterexample: inserting a second server with an already-present
id does not fail and is not rejected — it silently replaces the stored
node (last write wins), so a duplicate id is silently accepted. -/
theorem claim_C8_counterexample :
    srvB.id = srvA.id ∧ srvB ≠ srvA ∧
    (add_server (add_server emptySim srvA) srvB).servers = [srvB] ∧
    lookupServer (add_server (add_server emptySim srvA) srvB).servers 0 = some srvB := by
  refine ⟨rfl, by decide, by decide, by decide⟩

/-- C8 (amended): `add_server` and `add_client` never fail; inserting a
node whose id is already present replaces the stored node for that id
(HashMap insert semantics) and leaves every other id's lookup
unchanged. -/
theorem claim_C8 : ∀ (sim : NetworkSimulation) (s : Server) (c : Client) (n : Nat),
    lookupServer (add_server sim s).servers n =
      (if n = s.id then some s else lookupServer sim.servers n) ∧
    lookupClient (add_client sim c).clients n =
      (if n = c.id then some c else lookupClient sim.clients n) := by
  intro sim s c n
  constructor
  · by_cases h : n = s.id
    · rw [if_pos h, h]
      exact find_insertById_self Server.id sim.servers s
    · rw [if_neg h]
      exact find_insertById_other Server.id sim.servers s n h
  · by_cases h : n = c.id
    · rw [if_pos h, h]
      exact find_insertById_self Client.id sim.clients c
    · rw [if_neg h]
      exact find_insertById_other Client.id sim.clients c n h

/-- C9: a full run always reaches the loop's stopping condition — with
fuel `totalPot` the scheduler empties the queue or stops at the first
over-horizon event; the breadth-first search inside each step is a total
function by its visited-set termination measure. -/
theorem claim_C9 : ∀ (sim : NetworkSimulation) (d : ℚ),
    SimDone (run_simulation sim d) d = true :=
  fun sim d => runFuel_done d (totalPot sim) sim (le_refl _)

/-- C10: routing from a node to itself answers `none` (the initial queue
entry carries no first hop and immediately matches the destination), so a
self-addressed injection is a silent no-op. -/
theorem claim_C10 : ∀ (links : List NetworkLink) (x : Nat)
    (sim : NetworkSimulation) (size : Nat) (t : PacketType),
    find_next_hop links x x = none ∧ send_packet_ex sim x x size t = sim :=
  fun links x sim size t =>
    ⟨find_next_hop_self links x,
     send_packet_ex_none sim x x size t (find_next_hop_self sim.links x)⟩

end NetSim
